import Mathlib

/-!
# caddy-bunny-ip: the `bunny` IP range source

A verification development for `bunny.go`.  The Go module keeps a list of
`netip.Prefix` values that a background goroutine (`refreshLoop`) refreshes from
the bunny.net edge-server API, and hands the current list to request handlers
through `GetIPRanges`.

Conventions of the embedding

* A Go slice is a `List`; the `nil` slice is `[]`.
* A Go `(value, error)` result of a function of this package is a pair whose
  second component is `none` for a `nil` error.  Library functions that the
  package calls are parameters returning `Except`.
* `caddy.Duration` / `time.Duration` is an `Int` number of nanoseconds.
* `refreshLoop` is a small-step machine: one program counter per statement,
  with the timer, the cancellation of the provisioning context and the return of
  an outstanding fetch as separate actions.
* Library code (`context`, `time`, `caddyfile.Dispenser`) is modelled after the
  library's documented behaviour, only as far as `bunny.go` uses it.
-/

namespace Bunny

/-! ## Errors, contexts, the module struct -/

/-- A Go `error` value.  `argErr v` is what `Dispenser.ArgErr` builds when the
current token is `v`; every other error is carried as its message. -/
inductive Error where
  | argErr (val : String)
  | msg (text : String)
  deriving DecidableEq, Repr

/-- A `context.Context` as a derivation tree.  `base` is a context received from
outside (with the deadline it reports, if any), `cancelCtx` is the result of
`context.WithCancel`, `timerCtx` a context with a deadline of its own. -/
inductive Context where
  | base (deadline : Option Int)
  | cancelCtx (parent : Context)
  | timerCtx (parent : Context) (deadline : Int)
  deriving DecidableEq, Repr

/-- `ctx.Deadline()`: the time at which the context is cancelled on its own. -/
def Context.Deadline : Context → Option Int
  | .base d => d
  | .cancelCtx p => p.Deadline
  | .timerCtx _ d => some d

/-- The deadline that belongs to this node, not to an ancestor. -/
def Context.ownDeadline : Context → Option Int
  | .timerCtx _ d => some d
  | _ => none

/-- The context this one was derived from. -/
def Context.parent? : Context → Option Context
  | .base _ => none
  | .cancelCtx p => some p
  | .timerCtx p _ => some p

/-- Whether `ctx.Done()` is closed at time `now`, when `baseCancelled` tells
whether the outermost context has been cancelled.  The cancel function that
`getContext` returns is only run by the `defer` in `getPrefixes`, after the
fetch, and is not part of this predicate. -/
def Context.done (baseCancelled : Bool) (now : Int) : Context → Bool
  | .base d => baseCancelled || (match d with | some t => decide (t ≤ now) | none => false)
  | .cancelCtx p => p.done baseCancelled now
  | .timerCtx p d => p.done baseCancelled now || decide (d ≤ now)

/-- `context.WithCancel(parent)`. -/
def WithCancel (parent : Context) : Context := .cancelCtx parent

/-- `context.WithDeadline(parent, d)`: when the parent already ends before `d`
the result is a plain cancel context of the parent. -/
def WithDeadline (parent : Context) (d : Int) : Context :=
  match parent.Deadline with
  | some cur => if cur < d then WithCancel parent else .timerCtx parent d
  | none => .timerCtx parent d

/-- `context.WithTimeout(parent, timeout)` called at time `now`. -/
def WithTimeout (parent : Context) (timeout : Int) (now : Int) : Context :=
  WithDeadline parent (now + timeout)

/-- `sync.RWMutex`, as far as the writer is concerned: whether the write lock is
held. -/
structure RWMutex where
  w : Bool
  deriving DecidableEq, Repr

/-- `time.Hour` in nanoseconds. -/
def Hour : Int := 3600000000000

/-- The struct `BunnyIPRange` (bunny.go:36-47); `P` is `netip.Prefix`. -/
structure BunnyIPRange (P : Type) where
  Interval : Int
  Timeout : Int
  ranges : List P
  ctx : Context
  lock : RWMutex

/-- `new(BunnyIPRange)` (bunny.go:53) followed by `Provision` (bunny.go:109-110)
with the given configuration: no ranges, a fresh unlocked mutex. -/
def BunnyIPRange.provisioned {P : Type} (interval timeout : Int) (ctx : Context) :
    BunnyIPRange P :=
  { Interval := interval, Timeout := timeout, ranges := [], ctx := ctx, lock := ⟨false⟩ }

/-- `getContext` (bunny.go:58-63), called at time `now`. -/
def getContext {P : Type} (s : BunnyIPRange P) (now : Int) : Context :=
  if s.Timeout > 0 then
    WithTimeout s.ctx s.Timeout now
  else
    WithCancel s.ctx

/-! ## `getPrefixes` -/

/-- The `for _, ip := range ips` loop of `getPrefixes` (bunny.go:73-79);
`prefixes` is the slice built so far. -/
def getPrefixes.loop {P : Type} (CIDRExpressionToPrefix : String → Except Error P) :
    List String → List P → List P × Option Error
  | [], prefixes => (prefixes, none)
  | ip :: ips, prefixes =>
    match CIDRExpressionToPrefix ip with
    | .error err => ([], some err)
    | .ok p => getPrefixes.loop CIDRExpressionToPrefix ips (prefixes ++ [p])

/-- `getPrefixes` (bunny.go:65-81).  `resp` is what the call
`bunnynetedgeips.BunnynetEdgeIPs(ctx)` returned. -/
def getPrefixes {P : Type} (CIDRExpressionToPrefix : String → Except Error P)
    (resp : Except Error (List String)) : List P × Option Error :=
  match resp with
  | .error err => ([], some err)
  | .ok ips => getPrefixes.loop CIDRExpressionToPrefix ips []

/-! ## `refreshLoop` and `GetIPRanges` -/

/-- Program points of `refreshLoop` (bunny.go:83-106). -/
inductive PC (P : Type) where
  /-- bunny.go:84, before the interval is defaulted and the ticker created -/
  | entry
  /-- bunny.go:88, about to take the write lock -/
  | initLock
  /-- bunny.go:89, about to call `getPrefixes` -/
  | initCall
  /-- bunny.go:89, inside `getPrefixes`, the fetch is outstanding -/
  | initFetch
  /-- bunny.go:90, about to release the write lock -/
  | initUnlock
  /-- bunny.go:92, waiting in `select` -/
  | select
  /-- bunny.go:94, inside `getPrefixes`, the fetch is outstanding -/
  | tickFetch
  /-- bunny.go:98, about to take the write lock, `prefixes` in hand -/
  | tickLock (prefixes : List P)
  /-- bunny.go:99, about to assign `s.ranges = prefixes` -/
  | tickStore (prefixes : List P)
  /-- bunny.go:100, about to release the write lock -/
  | tickUnlock
  /-- bunny.go:103, `refreshLoop` has returned -/
  | returned
  /-- `time.NewTicker` panicked on a non-positive period -/
  | panicked
  deriving DecidableEq

/-- Whether a call of `getPrefixes` is outstanding at this program point. -/
def PC.fetching {P : Type} : PC P → Bool
  | .initFetch => true
  | .tickFetch => true
  | _ => false

/-- The goroutine running `refreshLoop`, together with what it interacts with. -/
structure LoopState (P : Type) where
  /-- the receiver `s` -/
  s : BunnyIPRange P
  pc : PC P
  /-- `s.ctx.Done()` is closed -/
  ctxDone : Bool
  /-- the argument `refreshLoop` passed to `time.NewTicker`, once it has -/
  tickerArg : Option Int
  /-- the ticker exists and has not been stopped -/
  tickerRunning : Bool
  /-- a tick is waiting in `ticker.C` -/
  tickReady : Bool
  /-- number of calls of `getPrefixes` so far -/
  fetches : Nat
  /-- number of assignments to `s.ranges` so far -/
  writes : Nat

/-- What can happen next. -/
inductive Action where
  /-- the goroutine executes the statement at its program point -/
  | exec
  /-- the outstanding `BunnynetEdgeIPs` call returns `resp` -/
  | fetched (resp : Except Error (List String))
  /-- `select` takes `case <-ticker.C` -/
  | recvTick
  /-- `select` takes `case <-s.ctx.Done()` -/
  | recvDone
  /-- the timer fires -/
  | tick
  /-- the provisioning context is cancelled -/
  | cancel

/-- `Provision` (bunny.go:108-113) on `new(BunnyIPRange)` carrying the configured
durations: it stores the context, creates the mutex and starts
`go s.refreshLoop()`, which is then at its entry. -/
def Provision {P : Type} (interval timeout : Int) : LoopState P :=
  { s := BunnyIPRange.provisioned interval timeout (.base none)
    pc := .entry
    ctxDone := false
    tickerArg := none
    tickerRunning := false
    tickReady := false
    fetches := 0
    writes := 0 }

/-- The period `refreshLoop` uses (bunny.go:84-86). -/
def effectiveInterval (interval : Int) : Int :=
  if interval = 0 then Hour else interval

/-- One transition of `refreshLoop`; `none` when the action is not possible in
the state.  `select` (bunny.go:92) may take any branch whose channel is ready,
so with a tick waiting and the context done both `recvTick` and `recvDone` are
possible. -/
def refreshLoop.step {P : Type} (CIDRExpressionToPrefix : String → Except Error P)
    (σ : LoopState P) : Action → Option (LoopState P)
  | .cancel => some { σ with ctxDone := true }
  | .tick => if σ.tickerRunning then some { σ with tickReady := true } else none
  | .exec =>
    match σ.pc with
    | .entry =>
      let interval := effectiveInterval σ.s.Interval
      if interval ≤ 0 then
        some { σ with s := { σ.s with Interval := interval }, tickerArg := some interval,
                      pc := .panicked }
      else
        some { σ with s := { σ.s with Interval := interval }, tickerArg := some interval,
                      tickerRunning := true, pc := .initLock }
    | .initLock => some { σ with s := { σ.s with lock := ⟨true⟩ }, pc := .initCall }
    | .initCall => some { σ with pc := .initFetch, fetches := σ.fetches + 1 }
    | .initUnlock => some { σ with s := { σ.s with lock := ⟨false⟩ }, pc := .select }
    | .tickLock prefixes =>
      some { σ with s := { σ.s with lock := ⟨true⟩ }, pc := .tickStore prefixes }
    | .tickStore prefixes =>
      some { σ with s := { σ.s with ranges := prefixes }, writes := σ.writes + 1,
                    pc := .tickUnlock }
    | .tickUnlock => some { σ with s := { σ.s with lock := ⟨false⟩ }, pc := .select }
    | _ => none
  | .fetched resp =>
    match σ.pc with
    | .initFetch =>
      some { σ with s := { σ.s with ranges := (getPrefixes CIDRExpressionToPrefix resp).1 },
                    writes := σ.writes + 1, pc := .initUnlock }
    | .tickFetch =>
      match getPrefixes CIDRExpressionToPrefix resp with
      | (_, some _) => some { σ with pc := .select }
      | (prefixes, none) => some { σ with pc := .tickLock prefixes }
    | _ => none
  | .recvTick =>
    match σ.pc with
    | .select =>
      if σ.tickReady then
        some { σ with tickReady := false, pc := .tickFetch, fetches := σ.fetches + 1 }
      else none
    | _ => none
  | .recvDone =>
    match σ.pc with
    | .select =>
      if σ.ctxDone then some { σ with tickerRunning := false, pc := .returned } else none
    | _ => none

/-- The goroutine `refreshLoop` (bunny.go:83-106) taken through a sequence of
actions; `none` when one of them is not possible. -/
def refreshLoop {P : Type} (CIDRExpressionToPrefix : String → Except Error P) :
    LoopState P → List Action → Option (LoopState P)
  | σ, [] => some σ
  | σ, a :: as =>
    match refreshLoop.step CIDRExpressionToPrefix σ a with
    | none => none
    | some σ' => refreshLoop CIDRExpressionToPrefix σ' as

/-- `GetIPRanges` (bunny.go:115-119) called in state `σ`: `RLock` cannot be taken
while the write lock is held, so the call then waits (`none`); otherwise it
returns `s.ranges`. -/
def GetIPRanges {P : Type} (σ : LoopState P) : Option (List P) :=
  if σ.s.lock.w then none else some σ.s.ranges

/-- The results of the `getPrefixes` calls that returned during `acts`, oldest
first. -/
def attempts {P : Type} (CIDRExpressionToPrefix : String → Except Error P) :
    List Action → List (List P × Option Error)
  | [] => []
  | .fetched resp :: as =>
    getPrefixes CIDRExpressionToPrefix resp :: attempts CIDRExpressionToPrefix as
  | _ :: as => attempts CIDRExpressionToPrefix as

/-- The list produced by the last attempt that returned no error, `[]` when
there is none: going through the attempts oldest first, every attempt without
an error replaces the list kept so far. -/
def lastSuccess {P : Type} (as : List (List P × Option Error)) : List P :=
  as.foldl (fun kept a => if a.2.isNone then a.1 else kept) []

/-! ## `caddyfile.Dispenser`, as far as `UnmarshalCaddyfile` uses it

Tokens of one file, without imports and heredocs. -/

/-- A `caddyfile.Token`: its text and the line it starts on. -/
structure Token where
  Text : String
  Line : Nat
  deriving DecidableEq, Repr

/-- `Token.NumLineBreaks`: the number of newlines in the text. -/
def Token.NumLineBreaks (t : Token) : Nat :=
  t.Text.toList.count (Char.ofNat 10)

/-- `isNextOnNewLine(t1, t2)`. -/
def isNextOnNewLine (t1 t2 : Token) : Bool :=
  decide (t1.Line + t1.NumLineBreaks < t2.Line)

/-- A `caddyfile.Dispenser`. -/
structure Dispenser where
  tokens : List Token
  cursor : Int
  nesting : Int
  deriving DecidableEq, Repr

/-- `caddyfile.NewDispenser`. -/
def NewDispenser (tokens : List Token) : Dispenser :=
  { tokens := tokens, cursor := -1, nesting := 0 }

/-- The token at index `i`, if there is one. -/
def Dispenser.tokenAt (d : Dispenser) (i : Int) : Option Token :=
  if i < 0 then none else d.tokens.get? i.toNat

/-- `Dispenser.Val`: the text of the current token, `""` when the cursor is out
of range. -/
def Dispenser.Val (d : Dispenser) : String :=
  match d.tokenAt d.cursor with
  | some t => t.Text
  | none => ""

/-- `Dispenser.Next`. -/
def Dispenser.Next (d : Dispenser) : Bool × Dispenser :=
  if d.cursor < (d.tokens.length : Int) - 1 then
    (true, { d with cursor := d.cursor + 1 })
  else
    (false, d)

/-- `Dispenser.nextOnSameLine`. -/
def Dispenser.nextOnSameLine (d : Dispenser) : Bool × Dispenser :=
  if d.cursor < 0 then
    (true, { d with cursor := d.cursor + 1 })
  else if d.cursor ≥ (d.tokens.length : Int) - 1 then
    (false, d)
  else
    match d.tokenAt d.cursor, d.tokenAt (d.cursor + 1) with
    | some curr, some next =>
      if !isNextOnNewLine curr next then
        (true, { d with cursor := d.cursor + 1 })
      else
        (false, d)
    | _, _ => (false, d)

/-- `Dispenser.NextArg`. -/
def Dispenser.NextArg (d : Dispenser) : Bool × Dispenser :=
  let (same, d1) := d.nextOnSameLine
  if !same then
    (false, d1)
  else if d1.Val = "\x7b" then
    (false, { d1 with cursor := d1.cursor - 1 })
  else
    (true, d1)

/-- `Dispenser.Nesting`. -/
def Dispenser.Nesting (d : Dispenser) : Int := d.nesting

/-- `Dispenser.NextBlock(initialNestingLevel)`.  In the nested case the two
conditions `d.Val() == "}" && !d.nextOnSameLine()` and
`d.Val() == "{" && !d.nextOnSameLine()` are evaluated left to right, the call
of `nextOnSameLine` moving the cursor when it succeeds. -/
def Dispenser.NextBlock (d : Dispenser) (initialNestingLevel : Int) : Bool × Dispenser :=
  if d.nesting > initialNestingLevel then
    let (more, d1) := d.Next
    if !more then
      (false, d1)
    else
      let (closing, d1a) :=
        if d1.Val = "\x7d" then
          let (same, d1s) := d1.nextOnSameLine
          (!same, d1s)
        else (false, d1)
      let d2 :=
        if closing then
          { d1a with nesting := d1a.nesting - 1 }
        else
          let (opening, d1b) :=
            if d1a.Val = "\x7b" then
              let (same, d1s) := d1a.nextOnSameLine
              (!same, d1s)
            else (false, d1a)
          if opening then { d1b with nesting := d1b.nesting + 1 } else d1b
      (decide (d2.nesting > initialNestingLevel), d2)
  else
    let (same, d1) := d.nextOnSameLine
    if !same then
      (false, d1)
    else if d1.Val ≠ "\x7b" then
      (false, { d1 with cursor := d1.cursor - 1 })
    else
      let d2 := d1.Next.2
      if d2.Val = "\x7d" then
        (false, d2)
      else
        (true, { d2 with nesting := d2.nesting + 1 })

/-- `Dispenser.ArgErr`. -/
def Dispenser.ArgErr (d : Dispenser) : Error := .argErr d.Val

/-! ## `UnmarshalCaddyfile` -/

/-- The outcome of one pass through the `switch` of `UnmarshalCaddyfile`. -/
inductive BodyResult (P : Type) where
  /-- a `return err` -/
  | ret (d : Dispenser) (m : BunnyIPRange P) (err : Error)
  /-- the end of the `switch`, on to the loop condition -/
  | next (d : Dispenser) (m : BunnyIPRange P)

/-- The `switch d.Val()` of `UnmarshalCaddyfile` (bunny.go:136-157). -/
def UnmarshalCaddyfile.body {P : Type} (ParseDuration : String → Except Error Int)
    (d : Dispenser) (m : BunnyIPRange P) : BodyResult P :=
  if d.Val = "interval" then
    let (more, d1) := d.NextArg
    if !more then .ret d1 m d1.ArgErr
    else
      match ParseDuration d1.Val with
      | .error err => .ret d1 m err
      | .ok val => .next d1 { m with Interval := val }
  else if d.Val = "timeout" then
    let (more, d1) := d.NextArg
    if !more then .ret d1 m d1.ArgErr
    else
      match ParseDuration d1.Val with
      | .error err => .ret d1 m err
      | .ok val => .next d1 { m with Timeout := val }
  else
    .ret d m d.ArgErr

/-- The `for nesting := d.Nesting(); d.NextBlock(nesting); { ... }` loop of
`UnmarshalCaddyfile` (bunny.go:135-158), with a bound on the number of
iterations; `none` when the bound is reached. -/
def UnmarshalCaddyfile.loop {P : Type} (ParseDuration : String → Except Error Int)
    (nesting : Int) : Nat → Dispenser → BunnyIPRange P →
    Option (Dispenser × BunnyIPRange P × Option Error)
  | 0, _, _ => none
  | fuel + 1, d, m =>
    let (more, d1) := d.NextBlock nesting
    if !more then some (d1, m, none)
    else
      match UnmarshalCaddyfile.body ParseDuration d1 m with
      | .ret d2 m2 err => some (d2, m2, some err)
      | .next d2 m2 => UnmarshalCaddyfile.loop ParseDuration nesting fuel d2 m2

/-- The number of iterations allowed to the loop that starts at `d`: every
iteration moves the cursor forward. -/
def Dispenser.bound (d : Dispenser) : Nat :=
  ((d.tokens.length : Int) - d.cursor).toNat + 1

/-- `UnmarshalCaddyfile` (bunny.go:127-161): the dispenser and the receiver as
the call leaves them, and the returned error. -/
def UnmarshalCaddyfile {P : Type} (ParseDuration : String → Except Error Int)
    (d : Dispenser) (m : BunnyIPRange P) :
    Option (Dispenser × BunnyIPRange P × Option Error) :=
  let d1 := d.Next.2
  let (more, d2) := d1.NextArg
  if more then
    some (d2, m, some d2.ArgErr)
  else
    UnmarshalCaddyfile.loop ParseDuration d2.Nesting d2.bound d2 m

/-! ## Configurations as they are written

A `bunny` segment is the module name, possibly followed by arguments on the
same line, possibly followed by a block with one entry per line. -/

/-- One line of the block: the option name and the words after it. -/
structure Entry where
  name : String
  args : List String
  deriving DecidableEq, Repr

/-- A `bunny` segment of a Caddyfile. -/
structure Config where
  /-- the module name, here `bunny` -/
  module : String
  /-- the words after the module name on its line -/
  sameLine : List String
  /-- the lines between the braces, when there is a block -/
  block : Option (List Entry)
  deriving DecidableEq, Repr

/-- The tokens of the words of one line. -/
def lineTokens (line : Nat) (words : List String) : List Token :=
  words.map (fun w => { Text := w, Line := line })

/-- The tokens of the entries, the first one on line `line`, one line each. -/
def entryTokens : Nat → List Entry → List Token
  | _, [] => []
  | line, e :: es => lineTokens line (e.name :: e.args) ++ entryTokens (line + 1) es

/-- The tokens of the block: the opening brace on line 1, the entries on the
lines after it, the closing brace on a line of its own. -/
def blockTokens : Option (List Entry) → List Token
  | none => []
  | some es =>
    [{ Text := "\x7b", Line := 1 }] ++ entryTokens 2 es ++
      [{ Text := "\x7d", Line := 2 + es.length }]

/-- The tokens the lexer produces for the segment: the module name and its
arguments on line 1, then the block. -/
def Config.tokens (c : Config) : List Token :=
  lineTokens 1 (c.module :: c.sameLine) ++ blockTokens c.block

/-- A word: not a brace, and on one line. -/
def Word (w : String) : Prop :=
  w ≠ "\x7b" ∧ w ≠ "\x7d" ∧ w.toList.count (Char.ofNat 10) = 0

instance (w : String) : Decidable (Word w) := by
  unfold Word; infer_instance

/-- All the words of the segment are words. -/
def Config.WellFormed (c : Config) : Prop :=
  Word c.module ∧ (∀ w ∈ c.sameLine, Word w) ∧
    ∀ es, c.block = some es → ∀ e ∈ es, Word e.name ∧ ∀ w ∈ e.args, Word w

/-- An entry that makes the configuration invalid: an option other than
`interval` and `timeout`, an option without a value, or a value that is not a
duration. -/
def Entry.Invalid (ParseDuration : String → Except Error Int) (e : Entry) : Prop :=
  (e.name ≠ "interval" ∧ e.name ≠ "timeout") ∨ e.args = [] ∨
    ∃ v rest err, e.args = v :: rest ∧ ParseDuration v = .error err

/-- An invalid configuration: an argument on the line of the module name, or an
invalid entry in the block. -/
def Config.Invalid (ParseDuration : String → Except Error Int) (c : Config) : Prop :=
  c.sameLine ≠ [] ∨ ∃ es, c.block = some es ∧ ∃ e ∈ es, e.Invalid ParseDuration

/-! ## Concrete library functions for the examples -/

/-- `time.unitMap`. -/
def unitMap (u : List Char) : Option Nat :=
  if u = ['n', 's'] then some 1
  else if u = ['u', 's'] then some 1000
  else if u = [Char.ofNat 0xB5, 's'] then some 1000
  else if u = [Char.ofNat 0x3BC, 's'] then some 1000
  else if u = ['m', 's'] then some 1000000
  else if u = ['s'] then some 1000000000
  else if u = ['m'] then some 60000000000
  else if u = ['h'] then some 3600000000000
  else none

/-- `time.leadingInt`: the leading decimal digits of `s` added to `x`, and the
rest; `none` on overflow. -/
def leadingInt : List Char → Nat → Option (Nat × List Char)
  | [], x => some (x, [])
  | c :: cs, x =>
    if c.isDigit then
      if x > 2 ^ 63 / 10 then none
      else
        let x1 := x * 10 + (c.toNat - 48)
        if x1 > 2 ^ 63 then none else leadingInt cs x1
    else some (x, c :: cs)

/-- The characters of a unit: up to the next `.` or digit. -/
def unitChars : List Char → List Char × List Char
  | [] => ([], [])
  | c :: cs =>
    if c = '.' ∨ c.isDigit then ([], c :: cs)
    else ((unitChars cs).1.cons c, (unitChars cs).2)

/-- The `for s != ""` loop of `time.ParseDuration` for durations whose numbers
have no fraction; `d` is the sum so far, `none` is an error. -/
def durationGroups : Nat → List Char → Nat → Option Nat
  | 0, _, _ => none
  | _ + 1, [], d => some d
  | fuel + 1, c :: cs, d =>
    if !c.isDigit then none
    else
      match leadingInt (c :: cs) 0 with
      | none => none
      | some (v, rest) =>
        match unitChars rest with
        | ([], _) => none
        | (u, rest2) =>
          match unitMap u with
          | none => none
          | some unit =>
            if v > 2 ^ 63 / unit then none
            else
              let d1 := d + v * unit
              if d1 > 2 ^ 63 then none else durationGroups fuel rest2 d1

/-- The function `caddy.ParseDuration` on durations written without a fraction
and without the day unit, where it is `time.ParseDuration`: an optional sign,
then one or more groups of decimal digits and a unit.  Texts with a `.` or a
`d` are outside this fragment and are reported as errors here. -/
def parseDurationInt (s : String) : Except Error Int :=
  let invalid : Except Error Int := .error (.msg ("time: invalid duration " ++ s))
  let (neg, body) :=
    match s.toList with
    | '-' :: cs => (true, cs)
    | '+' :: cs => (false, cs)
    | cs => (false, cs)
  if body = ['0'] then .ok 0
  else if body = [] then invalid
  else
    match durationGroups (body.length + 1) body 0 with
    | none => invalid
    | some d =>
      if neg then .ok (-(d : Int))
      else if d > 2 ^ 63 - 1 then invalid
      else .ok (d : Int)

/-- A prefix as the examples need it: the address as written, and the length. -/
structure SamplePrefix where
  addr : String
  bits : Nat
  deriving DecidableEq, Repr

/-- Split at the first `/`. -/
def splitSlash : List Char → List Char × Option (List Char)
  | [] => ([], none)
  | c :: cs =>
    if c = '/' then ([], some cs)
    else ((splitSlash cs).1.cons c, (splitSlash cs).2)

/-- A stand-in for `caddyhttp.CIDRExpressionToPrefix` in the examples.  It only
looks at the shape of the expression: an address made of hexadecimal digits
with `.` or `:` separators, and after a `/` a decimal length of at most 128;
without a `/` the length is that of a single address. -/
def sampleCIDR (expr : String) : Except Error SamplePrefix :=
  let (addr, len) := splitSlash expr.toList
  let v6 := addr.contains ':'
  let shaped := (v6 || addr.contains '.') &&
    addr.all (fun c => c.isDigit || c = '.' || c = ':' || ('a' ≤ c && c ≤ 'f') ||
      ('A' ≤ c && c ≤ 'F'))
  if !shaped then .error (.msg ("invalid IP address: " ++ expr))
  else
    match len with
    | none => .ok { addr := String.mk addr, bits := if v6 then 128 else 32 }
    | some ds =>
      match leadingInt ds 0 with
      | some (n, []) =>
        if ds ≠ [] ∧ n ≤ (if v6 then 128 else 32) then .ok { addr := String.mk addr, bits := n }
        else .error (.msg ("parsing CIDR expression: " ++ expr))
      | _ => .error (.msg ("parsing CIDR expression: " ++ expr))

/-! ## Invariants of `refreshLoop` -/

/-- Whether the action is the return of a fetch. -/
def Action.isFetched : Action → Bool
  | .fetched _ => true
  | _ => false

/-- The program points at which `refreshLoop` holds the write lock. -/
def PC.holdsLock {P : Type} : PC P → Bool
  | .initCall => true
  | .initFetch => true
  | .initUnlock => true
  | .tickStore _ => true
  | .tickUnlock => true
  | _ => false

/-- What holds of the state `refreshLoop` reaches from `Provision interval _` by the
actions `acts`: the lock is held exactly at the program points between `Lock`
and `Unlock`; the ticker has been given the effective interval; and `s.ranges`
is the list of the last successful attempt, except between the return of a
successful fetch and its assignment, when it is still the one before. -/
def Inv {P : Type} (parse : String → Except Error P) (interval : Int)
    (acts : List Action) (σ : LoopState P) : Prop :=
  σ.s.lock.w = σ.pc.holdsLock ∧
  (match σ.pc with
    | .entry => σ.tickerArg = none ∧ σ.tickerRunning = false ∧ σ.s.Interval = interval
    | .panicked => σ.tickerArg = some (effectiveInterval interval) ∧ σ.tickerRunning = false
    | .returned => σ.tickerArg = some (effectiveInterval interval) ∧ σ.tickerRunning = false
    | _ => σ.tickerArg = some (effectiveInterval interval)) ∧
  (match σ.pc with
    | .tickLock p => ∃ as, attempts parse acts = as ++ [(p, none)] ∧ σ.s.ranges = lastSuccess as
    | .tickStore p => ∃ as, attempts parse acts = as ++ [(p, none)] ∧ σ.s.ranges = lastSuccess as
    | .entry => attempts parse acts = [] ∧ σ.s.ranges = []
    | .initLock => attempts parse acts = [] ∧ σ.s.ranges = []
    | .initCall => attempts parse acts = [] ∧ σ.s.ranges = []
    | .initFetch => attempts parse acts = [] ∧ σ.s.ranges = []
    | .panicked => attempts parse acts = [] ∧ σ.s.ranges = []
    | _ => σ.s.ranges = lastSuccess (attempts parse acts))

/-! ## Theorems: `getPrefixes` -/

theorem getPrefixes_loop_ok {P : Type} (parse : String → Except Error P) :
    ∀ (ips : List String) (acc : List P), (∀ ip ∈ ips, ∃ p, parse ip = .ok p) →
      ∃ ps, getPrefixes.loop parse ips acc = (acc ++ ps, none) ∧
        List.Forall₂ (fun ip p => parse ip = .ok p) ips ps := by
  intro ips
  induction ips with
  | nil =>
    intro acc _
    exact ⟨[], by simp [getPrefixes.loop], List.Forall₂.nil⟩
  | cons ip ips ih =>
    intro acc h
    obtain ⟨p, hp⟩ := h ip (List.mem_cons_self _ _)
    obtain ⟨ps, hps, hall⟩ := ih (acc ++ [p]) (fun x hx => h x (List.mem_cons_of_mem _ hx))
    refine ⟨p :: ps, ?_, List.Forall₂.cons hp hall⟩
    simp [getPrefixes.loop, hp, hps]

theorem getPrefixes_loop_err {P : Type} (parse : String → Except Error P) :
    ∀ (ips : List String) (acc : List P), (∃ ip ∈ ips, ∃ e, parse ip = .error e) →
      ∃ err, getPrefixes.loop parse ips acc = ([], some err) := by
  intro ips
  induction ips with
  | nil =>
    intro acc h
    obtain ⟨ip, hip, _⟩ := h
    exact absurd hip (List.not_mem_nil _)
  | cons ip ips ih =>
    intro acc h
    cases hp : parse ip with
    | error e => exact ⟨e, by simp [getPrefixes.loop, hp]⟩
    | ok p =>
      obtain ⟨x, hx, e, he⟩ := h
      have hx2 : x ∈ ips := by
        rcases List.mem_cons.mp hx with rfl | hmem
        · rw [hp] at he; cases he
        · exact hmem
      obtain ⟨err, herr⟩ := ih (acc ++ [p]) ⟨x, hx2, e, he⟩
      exact ⟨err, by simp [getPrefixes.loop, hp, herr]⟩

/-- An attempt that returns an error returns no list. -/
theorem getPrefixes_error_nil {P : Type} (parse : String → Except Error P)
    (resp : Except Error (List String)) (e : Error)
    (h : (getPrefixes parse resp).2 = some e) : (getPrefixes parse resp).1 = [] := by
  cases resp with
  | error err => rfl
  | ok ips =>
    by_cases hall : ∀ ip ∈ ips, ∃ p, parse ip = .ok p
    · obtain ⟨ps, hps, _⟩ := getPrefixes_loop_ok parse ips [] hall
      simp [getPrefixes, hps] at h
    · have hex : ∃ ip ∈ ips, ∃ e, parse ip = .error e := by
        by_contra hno
        apply hall
        intro ip hip
        cases hp : parse ip with
        | ok p => exact ⟨p, rfl⟩
        | error e => exact absurd ⟨ip, hip, e, hp⟩ hno
      obtain ⟨err, herr⟩ := getPrefixes_loop_err parse ips [] hex
      simp [getPrefixes, herr]

/-- C2: `getPrefixes` is all-or-nothing.  When the data source fails,
`getPrefixes` returns that error and the nil list; when one of the raw
expressions fails `CIDRExpressionToPrefix`, wherever it stands in the list,
`getPrefixes` returns an error and the nil list; and that error is the one of the
first expression that fails. -/
theorem getPrefixes_all_or_nothing {P : Type} (parse : String → Except Error P) :
    (∀ err, getPrefixes parse (.error err) = ([], some err)) ∧
    (∀ ips, (∃ ip ∈ ips, ∃ e, parse ip = .error e) →
      ∃ err, getPrefixes parse (.ok ips) = ([], some err)) ∧
    (∀ good bad rest e, (∀ ip ∈ good, ∃ p, parse ip = .ok p) → parse bad = .error e →
      getPrefixes parse (.ok (good ++ bad :: rest)) = ([], some e)) := by
  refine ⟨fun err => rfl, fun ips h => getPrefixes_loop_err parse ips [] h, ?_⟩
  intro good bad rest e hgood hbad
  have key : ∀ (good : List String) (acc : List P), (∀ ip ∈ good, ∃ p, parse ip = .ok p) →
      getPrefixes.loop parse (good ++ bad :: rest) acc = ([], some e) := by
    intro good
    induction good with
    | nil => intro acc _; simp [getPrefixes.loop, hbad]
    | cons ip ips ih =>
      intro acc h
      obtain ⟨p, hp⟩ := h ip (List.mem_cons_self _ _)
      have := ih (acc ++ [p]) (fun x hx => h x (List.mem_cons_of_mem _ hx))
      simp [getPrefixes.loop, hp, this]
  exact key good [] hgood

/-- The all-or-nothing result on a list with a malformed expression between two
valid ones. -/
theorem getPrefixes_all_or_nothing_witness :
    ∃ err, getPrefixes sampleCIDR (.ok ["9.9.9.0/24", "not-a-cidr", "1.2.3.0/24"]) =
      ([], some err) :=
  (getPrefixes_all_or_nothing sampleCIDR).2.1 ["9.9.9.0/24", "not-a-cidr", "1.2.3.0/24"]
    ⟨"not-a-cidr", by simp, .msg "invalid IP address: not-a-cidr", rfl⟩

/-- C3: when every raw expression parses, `getPrefixes` returns no error and a
list of the same length whose i-th element is `CIDRExpressionToPrefix` of the
i-th raw expression. -/
theorem getPrefixes_complete {P : Type} (parse : String → Except Error P)
    (ips : List String) (h : ∀ ip ∈ ips, ∃ p, parse ip = .ok p) :
    ∃ ps, getPrefixes parse (.ok ips) = (ps, none) ∧ ps.length = ips.length ∧
      ∀ (i : Nat) (h1 : i < ips.length) (h2 : i < ps.length),
        parse (ips.get ⟨i, h1⟩) = .ok (ps.get ⟨i, h2⟩) := by
  obtain ⟨ps, hps, hall⟩ := getPrefixes_loop_ok parse ips [] h
  refine ⟨ps, by simpa [getPrefixes] using hps, hall.length_eq.symm, ?_⟩
  intro i h1 h2
  exact (List.forall₂_iff_get.mp hall).2 i h1 h2

/-- The two expressions `1.2.3.0/24` and `2001:db8::/32` give exactly their two
prefixes, in that order. -/
theorem getPrefixes_complete_witness :
    (∀ ip ∈ ["1.2.3.0/24", "2001:db8::/32"], ∃ p, sampleCIDR ip = .ok p) ∧
    getPrefixes sampleCIDR (.ok ["1.2.3.0/24", "2001:db8::/32"]) =
      ([⟨"1.2.3.0", 24⟩, ⟨"2001:db8::", 32⟩], none) ∧
    ∃ ps, getPrefixes sampleCIDR (.ok ["1.2.3.0/24", "2001:db8::/32"]) = (ps, none) ∧
      ps.length = 2 ∧
      ∀ (i : Nat) (h1 : i < 2) (h2 : i < ps.length),
        sampleCIDR (["1.2.3.0/24", "2001:db8::/32"].get ⟨i, h1⟩) = .ok (ps.get ⟨i, h2⟩) :=
  have hall : ∀ ip ∈ ["1.2.3.0/24", "2001:db8::/32"], ∃ p, sampleCIDR ip = .ok p := by
    intro ip hip
    simp only [List.mem_cons, List.mem_singleton, List.not_mem_nil, or_false] at hip
    rcases hip with rfl | rfl
    · exact ⟨⟨"1.2.3.0", 24⟩, rfl⟩
    · exact ⟨⟨"2001:db8::", 32⟩, rfl⟩
  ⟨hall, rfl, getPrefixes_complete sampleCIDR ["1.2.3.0/24", "2001:db8::/32"] hall⟩

/-! ## Theorems: `refreshLoop` -/

theorem attempts_append {P : Type} (parse : String → Except Error P) (l1 l2 : List Action) :
    attempts parse (l1 ++ l2) = attempts parse l1 ++ attempts parse l2 := by
  induction l1 with
  | nil => rfl
  | cons a l1 ih => cases a <;> simp [attempts, ih]

theorem attempts_of_no_fetched {P : Type} (parse : String → Except Error P) (l : List Action)
    (h : ∀ a ∈ l, a.isFetched = false) : attempts parse l = [] := by
  induction l with
  | nil => rfl
  | cons a l ih =>
    have ha := h a (List.mem_cons_self _ _)
    have hl := ih (fun x hx => h x (List.mem_cons_of_mem _ hx))
    cases a <;> simp_all [attempts, Action.isFetched]

theorem lastSuccess_append_one {P : Type} (as : List (List P × Option Error))
    (a : List P × Option Error) :
    lastSuccess (as ++ [a]) = if a.2.isNone then a.1 else lastSuccess as := by
  simp [lastSuccess, List.foldl_append]

theorem run_append {P : Type} (parse : String → Except Error P) (σ : LoopState P)
    (l1 l2 : List Action) :
    refreshLoop parse σ (l1 ++ l2) = (refreshLoop parse σ l1).bind (fun σ' => refreshLoop parse σ' l2) := by
  induction l1 generalizing σ with
  | nil => rfl
  | cons a l1 ih =>
    simp only [List.cons_append, refreshLoop]
    cases refreshLoop.step parse σ a with
    | none => rfl
    | some σ' => exact ih σ'

theorem run_snoc {P : Type} (parse : String → Except Error P) (σ σ' : LoopState P)
    (l : List Action) (a : Action) (h : refreshLoop parse σ (l ++ [a]) = some σ') :
    ∃ σ0, refreshLoop parse σ l = some σ0 ∧ refreshLoop.step parse σ0 a = some σ' := by
  rw [run_append] at h
  cases h0 : refreshLoop parse σ l with
  | none => simp [h0] at h
  | some σ0 =>
    refine ⟨σ0, rfl, ?_⟩
    simp only [h0, Option.bind, refreshLoop] at h
    cases hs : refreshLoop.step parse σ0 a with
    | none => simp [hs] at h
    | some σ1 => simp [hs] at h; simp [h]

theorem inv_init {P : Type} (parse : String → Except Error P) (interval timeout : Int) :
    Inv parse interval [] (Provision interval timeout : LoopState P) := by
  simp [Inv, Provision, BunnyIPRange.provisioned, PC.holdsLock, attempts]

theorem step_inv {P : Type} (parse : String → Except Error P) (interval : Int)
    (acts : List Action) (a : Action) (σ σ' : LoopState P)
    (hinv : Inv parse interval acts σ)
    (h : refreshLoop.step parse σ a = some σ') :
    Inv parse interval (acts ++ [a]) σ' := by
  obtain ⟨s, pc, ctxDone, tickerArg, tickerRunning, tickReady, fetches, writes⟩ := σ
  obtain ⟨hlock, htick, hrng⟩ := hinv
  cases a with
  | cancel =>
    simp only [refreshLoop.step, Option.some.injEq] at h
    subst h
    refine ⟨hlock, htick, ?_⟩
    simpa [attempts_append, attempts] using hrng
  | tick =>
    simp only [refreshLoop.step] at h
    split at h
    · simp only [Option.some.injEq] at h
      subst h
      refine ⟨hlock, htick, ?_⟩
      simpa [attempts_append, attempts] using hrng
    · cases h
  | exec =>
    cases pc <;> simp only [refreshLoop.step] at h
    case entry =>
      have hi : s.Interval = interval := htick.2.2
      split at h <;> cases h <;>
        simp_all [Inv, PC.holdsLock, attempts_append, attempts]
    case tickStore p =>
      cases h
      obtain ⟨as, has, _⟩ := hrng
      simp_all [Inv, PC.holdsLock, attempts_append, attempts, lastSuccess_append_one]
    all_goals
      cases h <;> simp_all [Inv, PC.holdsLock, attempts_append, attempts]
  | fetched resp =>
    cases pc <;> simp only [refreshLoop.step] at h
    case initFetch =>
      cases h
      simp only [Inv, PC.holdsLock, attempts_append, attempts] at *
      refine ⟨hlock, htick, ?_⟩
      rw [hrng.1, List.nil_append, ← List.nil_append [getPrefixes parse resp],
        lastSuccess_append_one]
      cases he : (getPrefixes parse resp).2 with
      | none => simp
      | some e => simp [getPrefixes_error_nil parse resp e he, lastSuccess]
    case tickFetch =>
      cases hg : getPrefixes parse resp with
      | mk ps err =>
        rw [hg] at h
        cases err with
        | none =>
          cases h
          simp only [Inv, PC.holdsLock, attempts_append, attempts] at *
          exact ⟨hlock, htick, _, by rw [hg], hrng⟩
        | some e =>
          cases h
          simp only [Inv, PC.holdsLock, attempts_append, attempts] at *
          refine ⟨hlock, htick, ?_⟩
          rw [lastSuccess_append_one, hg]
          simpa using hrng
    all_goals cases h
  | recvTick =>
    cases pc <;> simp only [refreshLoop.step] at h
    case select =>
      split at h
      · cases h
        simp_all [Inv, PC.holdsLock, attempts_append, attempts]
      · cases h
    all_goals cases h
  | recvDone =>
    cases pc <;> simp only [refreshLoop.step] at h
    case select =>
      split at h
      · cases h
        simp_all [Inv, PC.holdsLock, attempts_append, attempts]
      · cases h
    all_goals cases h

theorem inv_of_run {P : Type} (parse : String → Except Error P) (interval timeout : Int)
    (acts : List Action) :
    ∀ σ : LoopState P, refreshLoop parse (Provision interval timeout) acts = some σ →
      Inv parse interval acts σ := by
  induction acts using List.reverseRecOn with
  | nil =>
    intro σ h
    simp only [refreshLoop, Option.some.injEq] at h
    subst h
    exact inv_init parse interval timeout
  | append_singleton l a ih =>
    intro σ h
    obtain ⟨σ0, h0, hs⟩ := run_snoc parse _ σ l a h
    exact step_inv parse interval l a σ0 σ (ih σ0 h0) hs

/-- On a timer tick the fetch runs without the write lock: the only program
point at which a fetch is outstanding while the lock is held is the initial
fetch. -/
theorem tick_fetch_without_lock {P : Type} (parse : String → Except Error P)
    (interval timeout : Int) (acts : List Action) (σ : LoopState P)
    (hrun : refreshLoop parse (Provision interval timeout) acts = some σ)
    (hpc : σ.pc = .tickFetch) : σ.s.lock.w = false ∧ GetIPRanges σ = some σ.s.ranges := by
  have hinv := inv_of_run parse interval timeout acts σ hrun
  have hl : σ.s.lock.w = false := by
    rw [hinv.1, hpc]; rfl
  exact ⟨hl, by simp [GetIPRanges, hl]⟩

/-- C1: a failed attempt leaves the snapshot alone.  Take any run of
`refreshLoop` from its start in which an attempt returns an error (`fetched
resp` with `getPrefixes` yielding an error) and no later attempt has returned
yet.  Then `s.ranges` is the list produced by the last successful attempt before
it (`[]` when there is none), this is what `GetIPRanges` returns when it
returns, and it is the list that was stored while the failing fetch was
outstanding. -/
theorem refreshLoop_failure_keeps_snapshot {P : Type} (parse : String → Except Error P)
    (interval timeout : Int) (pre post : List Action) (resp : Except Error (List String))
    (e : Error) (σ : LoopState P)
    (hfail : (getPrefixes parse resp).2 = some e)
    (hpost : ∀ a ∈ post, a.isFetched = false)
    (hrun : refreshLoop parse (Provision interval timeout) (pre ++ .fetched resp :: post) =
      some σ) :
    σ.s.ranges = lastSuccess (attempts parse pre) ∧
    (∀ r, GetIPRanges σ = some r → r = lastSuccess (attempts parse pre)) ∧
    ∃ σ0, refreshLoop parse (Provision interval timeout) pre = some σ0 ∧
      σ0.pc.fetching = true ∧ σ.s.ranges = σ0.s.ranges := by
  have hinv := inv_of_run parse interval timeout _ σ hrun
  have hatt : attempts parse (pre ++ .fetched resp :: post) =
      attempts parse pre ++ [getPrefixes parse resp] := by
    rw [attempts_append]
    simp [attempts, attempts_of_no_fetched parse post hpost]
  have hlast : lastSuccess (attempts parse pre ++ [getPrefixes parse resp]) =
      lastSuccess (attempts parse pre) := by
    rw [lastSuccess_append_one, hfail]; rfl
  have hr : σ.s.ranges = lastSuccess (attempts parse pre) := by
    obtain ⟨_, _, h3⟩ := hinv
    rw [hatt] at h3
    cases hpc : σ.pc <;> rw [hpc] at h3 <;> simp only [hlast] at h3
    case tickLock p =>
      obtain ⟨as, has, _⟩ := h3
      have := List.append_inj_right' has rfl
      simp only [List.cons.injEq, and_true] at this
      rw [this] at hfail
      cases hfail
    case tickStore p =>
      obtain ⟨as, has, _⟩ := h3
      have := List.append_inj_right' has rfl
      simp only [List.cons.injEq, and_true] at this
      rw [this] at hfail
      cases hfail
    case entry => simp at h3
    case initLock => simp at h3
    case initCall => simp at h3
    case initFetch => simp at h3
    case panicked => simp at h3
    all_goals exact h3
  refine ⟨hr, ?_, ?_⟩
  · intro r hget
    unfold GetIPRanges at hget
    split at hget
    · cases hget
    · cases hget; exact hr
  · rw [run_append] at hrun
    cases h0 : refreshLoop parse (Provision interval timeout) pre with
    | none => simp [h0] at hrun
    | some σ0 =>
      refine ⟨σ0, rfl, ?_⟩
      have hinv0 := inv_of_run parse interval timeout pre σ0 h0
      simp only [h0, Option.bind, refreshLoop] at hrun
      cases hs : refreshLoop.step parse σ0 (.fetched resp) with
      | none => simp [hs] at hrun
      | some σ1 =>
        obtain ⟨_, _, h3⟩ := hinv0
        cases hpc : σ0.pc <;> rw [hpc] at h3 <;> simp only [refreshLoop.step, hpc] at hs <;>
          first
          | cases hs
          | skip
        all_goals first
          | exact ⟨rfl, by rw [hr, h3.1, h3.2]; rfl⟩
          | exact ⟨rfl, by rw [hr, h3]⟩

/-- The second attempt returns `not-a-cidr` after the first one installed
`9.9.9.0/24`: `GetIPRanges` still returns `9.9.9.0/24`. -/
theorem refreshLoop_failure_keeps_snapshot_witness :
    ∃ σ : LoopState SamplePrefix,
      refreshLoop sampleCIDR (Provision 0 0)
        ([.exec, .exec, .exec, .fetched (.ok ["9.9.9.0/24"]), .exec, .tick, .recvTick] ++
          .fetched (.ok ["not-a-cidr"]) :: []) = some σ ∧
      GetIPRanges σ = some [⟨"9.9.9.0", 24⟩] ∧
      σ.s.ranges = lastSuccess (attempts sampleCIDR
        [.exec, .exec, .exec, .fetched (.ok ["9.9.9.0/24"]), .exec, .tick, .recvTick]) :=
  ⟨_, rfl, rfl,
    (refreshLoop_failure_keeps_snapshot sampleCIDR 0 0
      [.exec, .exec, .exec, .fetched (.ok ["9.9.9.0/24"]), .exec, .tick, .recvTick] []
      (.ok ["not-a-cidr"]) (.msg "invalid IP address: not-a-cidr") _ rfl
      (by simp) rfl).1⟩

/-- C4, the code at the initial fetch: after `s.lock.Lock()` (bunny.go:88) and
the call of `getPrefixes` (bunny.go:89) the fetch is outstanding and the write
lock is held, so a `GetIPRanges` call waits until the fetch has returned. -/
theorem initial_fetch_holds_write_lock :
    (refreshLoop sampleCIDR (Provision 0 0) [.exec, .exec, .exec]).map
      (fun σ => (σ.pc.fetching, σ.s.lock.w, GetIPRanges σ)) = some (true, true, none) := by
  decide

/-- C7: the period `refreshLoop` passes to `time.NewTicker` is one hour
(3,600,000,000,000 ns) when the configured `Interval` is 0 and the configured
`Interval` otherwise; this is the first thing `refreshLoop` does, and the value
it passed stays the same in every later state. -/
theorem refreshLoop_ticker_period {P : Type} (parse : String → Except Error P)
    (interval timeout : Int) :
    (∃ σ : LoopState P, refreshLoop.step parse (Provision interval timeout) .exec = some σ ∧
      σ.tickerArg = some (if interval = 0 then 3600000000000 else interval)) ∧
    ∀ (acts : List Action) (σ : LoopState P),
      refreshLoop parse (Provision interval timeout) acts = some σ →
      σ.tickerArg = none ∨
        σ.tickerArg = some (if interval = 0 then 3600000000000 else interval) := by
  constructor
  · by_cases h : effectiveInterval interval ≤ 0
    · exact ⟨_, by simp only [refreshLoop.step, Provision, BunnyIPRange.provisioned, h, if_true]; rfl,
        rfl⟩
    · exact ⟨_, by simp only [refreshLoop.step, Provision, BunnyIPRange.provisioned, h, if_false]; rfl,
        rfl⟩
  · intro acts σ hrun
    obtain ⟨_, h2, _⟩ := inv_of_run parse interval timeout acts σ hrun
    cases hpc : σ.pc <;> rw [hpc] at h2 <;>
      first
      | exact Or.inl h2.1
      | exact Or.inr h2.1
      | exact Or.inr h2

/-- After the first two statements of `refreshLoop` with the interval left at 0
the ticker has been given one hour. -/
theorem refreshLoop_ticker_period_witness :
    ∃ σ : LoopState SamplePrefix,
      refreshLoop sampleCIDR (Provision 0 0) [.exec, .exec] = some σ ∧
      (σ.tickerArg = none ∨
        σ.tickerArg = some (if (0 : Int) = 0 then 3600000000000 else 0)) :=
  ⟨_, rfl, (refreshLoop_ticker_period sampleCIDR 0 0).2 [.exec, .exec] _ rfl⟩

/-- C8: the context `getContext` builds is a child of the provisioning context
`s.ctx` and is done whenever `s.ctx` is; with `Timeout > 0` its deadline is
never later than `now + Timeout`.  When `s.ctx` has no deadline, as the context
Caddy provisions modules with, the fetch context has the deadline
`now + Timeout` exactly when `Timeout > 0`; when `Timeout` is not positive it
has no deadline, neither its own nor an inherited one, and is done exactly when
`s.ctx` is. -/
theorem getContext_deadline {P : Type} (s : BunnyIPRange P) (now : Int) :
    (getContext s now).parent? = some s.ctx ∧
    (∀ c t, s.ctx.done c t = true → (getContext s now).done c t = true) ∧
    (0 < s.Timeout →
      ∃ dl, (getContext s now).Deadline = some dl ∧ dl ≤ now + s.Timeout) ∧
    (s.ctx.Deadline = none →
      ((getContext s now).Deadline = some (now + s.Timeout) ↔ 0 < s.Timeout) ∧
      ((getContext s now).ownDeadline = some (now + s.Timeout) ↔ 0 < s.Timeout) ∧
      (¬ 0 < s.Timeout →
        (getContext s now).Deadline = none ∧ (getContext s now).ownDeadline = none ∧
          ∀ c t, (getContext s now).done c t = s.ctx.done c t)) := by
  by_cases h : 0 < s.Timeout
  · cases hd : s.ctx.Deadline with
    | none =>
      have hg : getContext s now = .timerCtx s.ctx (now + s.Timeout) := by
        simp [getContext, h, WithTimeout, WithDeadline, hd]
      rw [hg]
      refine ⟨rfl, ?_, fun _ => ⟨_, rfl, le_refl _⟩, fun _ =>
        ⟨by simp [Context.Deadline, h], by simp [Context.ownDeadline, h],
          fun hn => absurd h hn⟩⟩
      intro c t hdone
      simp [Context.done, hdone]
    | some cur =>
      by_cases hlt : cur < now + s.Timeout
      · have hg : getContext s now = .cancelCtx s.ctx := by
          simp [getContext, h, WithTimeout, WithDeadline, hd, hlt, WithCancel]
        rw [hg]
        refine ⟨rfl, fun c t hdone => by simpa [Context.done] using hdone,
          fun _ => ⟨cur, by simp [Context.Deadline, hd], le_of_lt hlt⟩,
          fun hnone => by cases hnone⟩
      · have hg : getContext s now = .timerCtx s.ctx (now + s.Timeout) := by
          simp [getContext, h, WithTimeout, WithDeadline, hd, hlt]
        rw [hg]
        refine ⟨rfl, ?_, fun _ => ⟨_, rfl, le_refl _⟩, fun hnone => by cases hnone⟩
        intro c t hdone
        simp [Context.done, hdone]
  · have hg : getContext s now = .cancelCtx s.ctx := by
      simp [getContext, h, WithCancel]
    rw [hg]
    refine ⟨rfl, fun c t hdone => by simpa [Context.done] using hdone,
      fun hpos => absurd hpos h, fun hbase => ⟨?_, ?_, ?_⟩⟩
    · simp [Context.Deadline, hbase, h]
    · simp [Context.ownDeadline, h]
    · intro _
      exact ⟨by simp [Context.Deadline, hbase], rfl, fun c t => rfl⟩

/-- With a timeout of 30 s under a provisioning context without deadline, the
fetch context built at time 1000 has the deadline 1000 + 30 s. -/
theorem getContext_deadline_witness :
    (∃ dl, (getContext (BunnyIPRange.provisioned 0 30000000000 (.base none) : BunnyIPRange Nat)
      1000).Deadline = some dl ∧ dl ≤ 1000 + 30000000000) ∧
    ((getContext (BunnyIPRange.provisioned 0 30000000000 (.base none) : BunnyIPRange Nat)
      1000).Deadline = some (1000 + 30000000000) ↔ (0 : Int) < 30000000000) :=
  ⟨(getContext_deadline
      (BunnyIPRange.provisioned 0 30000000000 (.base none) : BunnyIPRange Nat) 1000).2.2.1
      (by decide),
    ((getContext_deadline
      (BunnyIPRange.provisioned 0 30000000000 (.base none) : BunnyIPRange Nat) 1000).2.2.2
      rfl).1⟩

theorem returned_stable {P : Type} (parse : String → Except Error P) (acts : List Action) :
    ∀ σ σ' : LoopState P, σ.pc = .returned → σ.tickerRunning = false →
      refreshLoop parse σ acts = some σ' →
      σ'.pc = .returned ∧ σ'.tickerRunning = false ∧ σ'.fetches = σ.fetches ∧
        σ'.writes = σ.writes ∧ σ'.s = σ.s := by
  induction acts with
  | nil =>
    intro σ σ' hpc htr h
    simp only [refreshLoop, Option.some.injEq] at h
    subst h
    exact ⟨hpc, htr, rfl, rfl, rfl⟩
  | cons a acts ih =>
    intro σ σ' hpc htr h
    simp only [refreshLoop] at h
    cases hs : refreshLoop.step parse σ a with
    | none => simp [hs] at h
    | some σ1 =>
      simp only [hs] at h
      have h1 : σ1.pc = .returned ∧ σ1.tickerRunning = false ∧ σ1.fetches = σ.fetches ∧
          σ1.writes = σ.writes ∧ σ1.s = σ.s := by
        cases a <;> simp only [refreshLoop.step, hpc, htr] at hs <;> cases hs
        exact ⟨rfl, rfl, rfl, rfl, rfl⟩
      obtain ⟨q1, q2, q3, q4, q5⟩ := ih σ1 σ' h1.1 h1.2.1 h
      exact ⟨q1, q2, q3.trans h1.2.2.1, q4.trans h1.2.2.2.1, q5.trans h1.2.2.2.2⟩

/-- C6 as stated fails.  With the ticker's tick waiting when the provisioning
context is cancelled, `select` may take the tick, and `refreshLoop` calls
`getPrefixes` once more (the count of calls goes from 1 to 2 with the context
done).  And when the cancellation arrives after a fetch has returned and before
its result is stored, the assignment to `s.ranges` still happens (the count of
assignments goes from 1 to 2 and the stored list changes, with the context
done). -/
theorem fetch_and_write_after_cancel :
    (refreshLoop sampleCIDR (Provision 0 0)
        [.exec, .exec, .exec, .fetched (.ok ["9.9.9.0/24"]), .exec, .tick, .cancel]).map
      (fun σ => (σ.ctxDone, σ.tickReady, σ.fetches)) = some (true, true, 1) ∧
    (refreshLoop sampleCIDR (Provision 0 0)
        [.exec, .exec, .exec, .fetched (.ok ["9.9.9.0/24"]), .exec, .tick, .cancel,
          .recvTick]).map
      (fun σ => (σ.ctxDone, σ.pc.fetching, σ.fetches)) = some (true, true, 2) ∧
    (refreshLoop sampleCIDR (Provision 0 0)
        [.exec, .exec, .exec, .fetched (.ok ["9.9.9.0/24"]), .exec, .tick, .recvTick,
          .fetched (.ok ["1.2.3.0/24"]), .cancel]).map
      (fun σ => (σ.ctxDone, σ.writes, σ.s.ranges)) =
        some (true, 1, [⟨"9.9.9.0", 24⟩]) ∧
    (refreshLoop sampleCIDR (Provision 0 0)
        [.exec, .exec, .exec, .fetched (.ok ["9.9.9.0/24"]), .exec, .tick, .recvTick,
          .fetched (.ok ["1.2.3.0/24"]), .cancel, .exec, .exec]).map
      (fun σ => (σ.ctxDone, σ.writes, σ.s.ranges)) =
        some (true, 2, [⟨"1.2.3.0", 24⟩]) := by
  decide

/-- C6, amended: once `select` has taken the branch `case <-s.ctx.Done()`,
`refreshLoop` has stopped the ticker and returned, and whatever happens next it
calls `getPrefixes` no more and assigns `s.ranges` no more; `GetIPRanges` then
returns the list of the last successful attempt.  And when the loop waits in
`select` with the context done and no tick waiting, that branch is the only one
it can take. -/
theorem refreshLoop_quiet_after_done {P : Type} (parse : String → Except Error P)
    (interval timeout : Int) :
    (∀ (pre acts : List Action) (σ σ' : LoopState P),
      refreshLoop parse (Provision interval timeout) (pre ++ [.recvDone]) = some σ →
      refreshLoop parse σ acts = some σ' →
      σ'.pc = .returned ∧ σ'.tickerRunning = false ∧ σ'.fetches = σ.fetches ∧
        σ'.writes = σ.writes ∧ σ'.s.ranges = σ.s.ranges ∧
        GetIPRanges σ' = some (lastSuccess (attempts parse pre))) ∧
    (∀ (pre : List Action) (σ : LoopState P),
      refreshLoop parse (Provision interval timeout) pre = some σ →
      σ.pc = .select → σ.ctxDone = true → σ.tickReady = false →
      refreshLoop.step parse σ .recvTick = none ∧ refreshLoop.step parse σ .exec = none ∧
        (∀ resp, refreshLoop.step parse σ (.fetched resp) = none) ∧
        ∃ σ', refreshLoop.step parse σ .recvDone = some σ' ∧ σ'.pc = .returned ∧
          σ'.fetches = σ.fetches ∧ σ'.writes = σ.writes ∧ σ'.s = σ.s) := by
  constructor
  · intro pre acts σ σ' h1 h2
    have hinv := inv_of_run parse interval timeout _ σ h1
    obtain ⟨σ0, h0, hs⟩ := run_snoc parse _ σ pre .recvDone h1
    have hpc : σ.pc = .returned := by
      cases hp : σ0.pc <;> simp only [refreshLoop.step, hp] at hs <;> try cases hs
      split at hs
      · cases hs; rfl
      · cases hs
    obtain ⟨hl, ht, hr⟩ := hinv
    rw [hpc] at hl ht hr
    obtain ⟨q1, q2, q3, q4, q5⟩ := returned_stable parse acts σ σ' hpc ht.2 h2
    refine ⟨q1, q2, q3, q4, by rw [q5], ?_⟩
    have hatt : attempts parse (pre ++ [.recvDone]) = attempts parse pre := by
      simp [attempts_append, attempts]
    simp only [GetIPRanges, q5, hl, PC.holdsLock]
    rw [hr, hatt]; rfl
  · intro pre σ _ hpc hd ht
    refine ⟨by simp [refreshLoop.step, hpc, ht], by simp [refreshLoop.step, hpc], fun resp => by simp [refreshLoop.step, hpc], ?_⟩
    refine ⟨{ σ with tickerRunning := false, pc := .returned }, ?_, rfl, rfl, rfl, rfl⟩
    simp only [refreshLoop.step, hpc, hd, if_true]

/-- After one successful attempt the context is cancelled and `select` takes the
cancellation branch; a further tick of the clock and a further cancellation
change nothing. -/
theorem refreshLoop_quiet_after_done_witness :
    ∃ σ σ' : LoopState SamplePrefix,
      refreshLoop sampleCIDR (Provision 0 0)
        ([.exec, .exec, .exec, .fetched (.ok ["9.9.9.0/24"]), .exec, .cancel] ++
          [.recvDone]) = some σ ∧
      refreshLoop sampleCIDR σ [.cancel] = some σ' ∧
      σ'.fetches = 1 ∧ σ'.writes = 1 ∧ GetIPRanges σ' = some [⟨"9.9.9.0", 24⟩] ∧
      (σ'.pc = .returned ∧ σ'.tickerRunning = false ∧ σ'.fetches = σ.fetches ∧
        σ'.writes = σ.writes ∧ σ'.s.ranges = σ.s.ranges ∧
        GetIPRanges σ' = some (lastSuccess (attempts sampleCIDR
          [.exec, .exec, .exec, .fetched (.ok ["9.9.9.0/24"]), .exec, .cancel]))) :=
  ⟨_, _, rfl, rfl, rfl, rfl, rfl,
    (refreshLoop_quiet_after_done sampleCIDR 0 0).1
      [.exec, .exec, .exec, .fetched (.ok ["9.9.9.0/24"]), .exec, .cancel] [.cancel] _ _
      rfl rfl⟩

/-! ## Theorems: the dispenser -/

theorem Next_tokens (d : Dispenser) : d.Next.2.tokens = d.tokens := by
  unfold Dispenser.Next; split <;> rfl

theorem Next_nesting (d : Dispenser) : d.Next.2.nesting = d.nesting := by
  unfold Dispenser.Next; split <;> rfl

theorem Next_cursor (d : Dispenser) :
    (d.Next.1 = true → d.Next.2.cursor = d.cursor + 1 ∧ d.cursor < (d.tokens.length : Int) - 1) ∧
    (d.Next.1 = false → d.Next.2 = d) := by
  unfold Dispenser.Next; split <;> simp_all

theorem nextOnSameLine_tokens (d : Dispenser) : d.nextOnSameLine.2.tokens = d.tokens := by
  unfold Dispenser.nextOnSameLine; repeat' split
  all_goals rfl

theorem nextOnSameLine_nesting (d : Dispenser) : d.nextOnSameLine.2.nesting = d.nesting := by
  unfold Dispenser.nextOnSameLine; repeat' split
  all_goals rfl

theorem nextOnSameLine_cursor (d : Dispenser) :
    (d.nextOnSameLine.1 = true → d.nextOnSameLine.2.cursor = d.cursor + 1 ∧
      (d.cursor < 0 ∨ d.cursor < (d.tokens.length : Int) - 1)) ∧
    (d.nextOnSameLine.1 = false → d.nextOnSameLine.2 = d) := by
  unfold Dispenser.nextOnSameLine; repeat' split
  all_goals simp_all
  all_goals omega

theorem NextArg_tokens (d : Dispenser) : d.NextArg.2.tokens = d.tokens := by
  unfold Dispenser.NextArg
  simp only
  repeat' split
  all_goals simp [nextOnSameLine_tokens]

theorem NextArg_nesting (d : Dispenser) : d.NextArg.2.nesting = d.nesting := by
  unfold Dispenser.NextArg
  simp only
  repeat' split
  all_goals simp [nextOnSameLine_nesting]

theorem NextArg_cursor (d : Dispenser) :
    (d.NextArg.1 = true → d.NextArg.2.cursor = d.cursor + 1 ∧
      (d.cursor < 0 ∨ d.cursor < (d.tokens.length : Int) - 1)) ∧
    (d.NextArg.1 = false → d.NextArg.2.cursor = d.cursor) := by
  have h := nextOnSameLine_cursor d
  unfold Dispenser.NextArg
  simp only
  cases hs : d.nextOnSameLine.1
  · simp [hs, h.2 hs]
  · have h1 := h.1 hs
    simp only [hs, Bool.not_true, Bool.false_eq_true, if_false]
    split
    · simp; omega
    · simp; exact h1

theorem nextOnSameLine_mono (d : Dispenser) : d.cursor ≤ d.nextOnSameLine.2.cursor := by
  have h := nextOnSameLine_cursor d
  cases hs : d.nextOnSameLine.1
  · rw [h.2 hs]
  · have := (h.1 hs).1; omega

theorem NextBlock_tokens (d : Dispenser) (n : Int) : (d.NextBlock n).2.tokens = d.tokens := by
  unfold Dispenser.NextBlock
  simp only
  repeat' split
  all_goals simp [Next_tokens, nextOnSameLine_tokens]

theorem NextBlock_cursor (d : Dispenser) (n : Int) :
    d.cursor ≤ (d.NextBlock n).2.cursor ∧
    ((d.NextBlock n).1 = true → d.cursor + 1 ≤ (d.NextBlock n).2.cursor ∧
      (d.cursor < 0 ∨ d.cursor < (d.tokens.length : Int) - 1)) := by
  unfold Dispenser.NextBlock
  split
  · rcases hnx : d.Next with ⟨more, d1⟩
    have hN := Next_cursor d
    rw [hnx] at hN
    simp only at hN
    cases more
    · have := hN.2 rfl
      subst this
      simp
    · obtain ⟨hc, hlt⟩ := hN.1 rfl
      simp only [Bool.not_true, Bool.false_eq_true, if_false]
      have hA := nextOnSameLine_cursor d1
      have key : ∀ d2 : Dispenser, d1.cursor ≤ d2.cursor →
          d.cursor ≤ d2.cursor ∧ (decide (d2.nesting > n) = true → d.cursor + 1 ≤ d2.cursor ∧
            (d.cursor < 0 ∨ d.cursor < (d.tokens.length : Int) - 1)) := by
        intro d2 h2
        exact ⟨by omega, fun _ => ⟨by omega, Or.inr hlt⟩⟩
      apply key
      have h1 := nextOnSameLine_mono d1
      rcases hs1 : d1.nextOnSameLine with ⟨same1, d1s⟩
      rw [hs1] at h1
      simp only at h1
      have h2 := nextOnSameLine_mono d1
      have h3 := nextOnSameLine_mono d1s
      rcases hs3 : d1s.nextOnSameLine with ⟨same3, d3s⟩
      rw [hs3] at h3
      rw [hs1] at h2
      simp only at h2 h3
      repeat' split
      all_goals simp_all
      all_goals omega
  · have hA := nextOnSameLine_cursor d
    rcases hs : d.nextOnSameLine with ⟨same, d1⟩
    rw [hs] at hA
    simp only at hA
    cases same
    · have := hA.2 rfl
      subst this
      simp
    · obtain ⟨hc, hlt⟩ := hA.1 rfl
      have hN := Next_cursor d1
      rcases hnx : d1.Next with ⟨more, d2⟩
      rw [hnx] at hN
      simp only at hN
      have hlt2 : d.cursor < 0 ∨ d.cursor < (d.tokens.length : Int) - 1 := hlt
      have hd2 : d1.cursor ≤ d2.cursor := by
        cases more
        · rw [hN.2 rfl]
        · have := (hN.1 rfl).1; omega
      simp only [Bool.not_true, Bool.false_eq_true, if_false]
      repeat' split
      all_goals simp_all
      all_goals omega

theorem body_next {P : Type} (pd : String → Except Error Int) (d d2 : Dispenser)
    (m m2 : BunnyIPRange P) (h : UnmarshalCaddyfile.body pd d m = .next d2 m2) :
    d2 = d.NextArg.2 ∧ d.NextArg.1 = true ∧
    ((d.Val = "interval" ∧ ∃ v, pd d2.Val = .ok v ∧ m2 = { m with Interval := v }) ∨
     (d.Val ≠ "interval" ∧ d.Val = "timeout" ∧
        ∃ v, pd d2.Val = .ok v ∧ m2 = { m with Timeout := v })) := by
  unfold UnmarshalCaddyfile.body at h
  rcases hna : d.NextArg with ⟨more, d1⟩
  rw [hna] at h
  simp only at h
  split at h
  · cases more
    · simp at h
    · simp only [Bool.not_true, Bool.false_eq_true, if_false] at h
      cases hp : pd d1.Val with
      | error e => simp [hp] at h
      | ok v =>
        simp only [hp, BodyResult.next.injEq] at h
        obtain ⟨rfl, rfl⟩ := h
        exact ⟨rfl, rfl, Or.inl ⟨by assumption, v, hp, rfl⟩⟩
  · split at h
    · cases more
      · simp at h
      · simp only [Bool.not_true, Bool.false_eq_true, if_false] at h
        cases hp : pd d1.Val with
        | error e => simp [hp] at h
        | ok v =>
          simp only [hp, BodyResult.next.injEq] at h
          obtain ⟨rfl, rfl⟩ := h
          exact ⟨rfl, rfl, Or.inr ⟨by assumption, by assumption, v, hp, rfl⟩⟩
    · cases h

theorem loop_returns {P : Type} (pd : String → Except Error Int) (n : Int) :
    ∀ (fuel : Nat) (d : Dispenser) (m : BunnyIPRange P),
      ((d.tokens.length : Int) - d.cursor).toNat < fuel →
      ∃ r, UnmarshalCaddyfile.loop pd n fuel d m = some r := by
  intro fuel
  induction fuel with
  | zero => intro d m h; omega
  | succ fuel ih =>
    intro d m h
    unfold UnmarshalCaddyfile.loop
    have hB := NextBlock_cursor d n
    have hT := NextBlock_tokens d n
    rcases hnb : d.NextBlock n with ⟨more, d1⟩
    rw [hnb] at hB hT
    simp only at hB hT
    cases more
    · exact ⟨_, rfl⟩
    · simp only [Bool.not_true, Bool.false_eq_true, if_false]
      obtain ⟨hc, hlt⟩ := hB.2 rfl
      cases hb : UnmarshalCaddyfile.body pd d1 m with
      | ret d2 m2 err => exact ⟨_, rfl⟩
      | next d2 m2 =>
        obtain ⟨rfl, hna, _⟩ := body_next pd d1 d2 m m2 hb
        have hA := (NextArg_cursor d1).1 hna
        have hAT := NextArg_tokens d1
        apply ih
        rw [hAT, hT, hA.1]
        omega

/-- `UnmarshalCaddyfile` returns: the bound on the iterations of its loop is
never reached. -/
theorem UnmarshalCaddyfile_returns {P : Type} (pd : String → Except Error Int)
    (d : Dispenser) (m : BunnyIPRange P) : ∃ r, UnmarshalCaddyfile pd d m = some r := by
  unfold UnmarshalCaddyfile
  simp only
  rcases hna : d.Next.2.NextArg with ⟨more, d2⟩
  cases more
  · simp only [Bool.false_eq_true, if_false]
    apply loop_returns
    unfold Dispenser.bound
    omega
  · exact ⟨_, rfl⟩

theorem Val_mem (d : Dispenser) (h0 : 0 ≤ d.cursor) (h1 : d.cursor < (d.tokens.length : Int)) :
    ∃ t ∈ d.tokens, d.Val = t.Text := by
  unfold Dispenser.Val Dispenser.tokenAt
  have hlt : d.cursor.toNat < d.tokens.length := by omega
  have hget : d.tokens.get? d.cursor.toNat = some (d.tokens.get ⟨d.cursor.toNat, hlt⟩) :=
    List.get?_eq_get hlt
  simp only [not_lt.mpr h0, if_false, hget]
  exact ⟨_, List.get_mem _ _ _, rfl⟩

theorem loop_nonneg {P : Type} (pd : String → Except Error Int) (n : Int) :
    ∀ (fuel : Nat) (d : Dispenser) (m : BunnyIPRange P)
      (r : Dispenser × BunnyIPRange P × Option Error),
      0 ≤ d.cursor → (∀ t ∈ d.tokens, ∀ x, pd t.Text = .ok x → 0 ≤ x) →
      0 ≤ m.Interval → 0 ≤ m.Timeout →
      UnmarshalCaddyfile.loop pd n fuel d m = some r →
      0 ≤ r.2.1.Interval ∧ 0 ≤ r.2.1.Timeout := by
  intro fuel
  induction fuel with
  | zero => intro d m r _ _ _ _ h; simp [UnmarshalCaddyfile.loop] at h
  | succ fuel ih =>
    intro d m r hc hpd hI hT h
    unfold UnmarshalCaddyfile.loop at h
    have hB := NextBlock_cursor d n
    have hTk := NextBlock_tokens d n
    rcases hnb : d.NextBlock n with ⟨more, d1⟩
    rw [hnb] at hB hTk h
    simp only at hB hTk h
    cases more
    · simp only [Bool.not_false, if_true, Option.some.injEq] at h
      subst h
      exact ⟨hI, hT⟩
    · simp only [Bool.not_true, Bool.false_eq_true, if_false] at h
      cases hb : UnmarshalCaddyfile.body pd d1 m with
      | ret d2 m2 err =>
        rw [hb] at h
        simp only [Option.some.injEq] at h
        subst h
        have hm : m2 = m := by
          unfold UnmarshalCaddyfile.body at hb
          simp only at hb
          repeat' split at hb
          all_goals first
            | (cases hb; rfl)
            | cases hb
        subst hm
        exact ⟨hI, hT⟩
      | next d2 m2 =>
        rw [hb] at h
        simp only at h
        obtain ⟨rfl, hna, hcase⟩ := body_next pd d1 _ m m2 hb
        have hA := (NextArg_cursor d1).1 hna
        have hAT := NextArg_tokens d1
        have hc1 : 0 ≤ d1.cursor := by omega
        have hval : ∃ t ∈ d.tokens, d1.NextArg.2.Val = t.Text := by
          have := Val_mem d1.NextArg.2 (by omega) (by rw [hAT, hA.1]; omega)
          rwa [hAT, hTk] at this
        obtain ⟨t, ht, htv⟩ := hval
        apply ih d1.NextArg.2 m2 r (by omega) (by rw [hAT, hTk]; exact hpd) _ _ h
        · rcases hcase with ⟨_, v, hv, rfl⟩ | ⟨_, _, v, hv, rfl⟩
          · rw [htv] at hv
            exact hpd t ht v hv
          · exact hI
        · rcases hcase with ⟨_, v, hv, rfl⟩ | ⟨_, _, v, hv, rfl⟩
          · exact hT
          · rw [htv] at hv
            exact hpd t ht v hv

/-! Stepping through a token list of known shape. -/

theorem tokenAt_at (d : Dispenser) (pre : List Token) (t : Token) (rest : List Token)
    (htok : d.tokens = pre ++ t :: rest) : d.tokenAt (pre.length : Int) = some t := by
  unfold Dispenser.tokenAt
  have h0 : ¬ ((pre.length : Int) < 0) := by omega
  rw [if_neg h0, htok, Int.toNat_ofNat, List.get?_eq_getElem?,
    List.getElem?_append_right (le_refl _), Nat.sub_self]
  simp

theorem Val_at (d : Dispenser) (pre : List Token) (t : Token) (rest : List Token)
    (htok : d.tokens = pre ++ t :: rest) (hcur : d.cursor = (pre.length : Int)) :
    d.Val = t.Text := by
  unfold Dispenser.Val
  rw [hcur, tokenAt_at d pre t rest htok]

theorem Next_at (d : Dispenser) (pre : List Token) (t u : Token) (rest : List Token)
    (htok : d.tokens = pre ++ t :: u :: rest) (hcur : d.cursor = (pre.length : Int)) :
    d.Next = (true, { d with cursor := ((pre ++ [t]).length : Int) }) := by
  unfold Dispenser.Next
  have : d.cursor < (d.tokens.length : Int) - 1 := by
    rw [htok, hcur]; simp; omega
  rw [if_pos this]
  simp [hcur]

theorem nextOnSameLine_at (d : Dispenser) (pre : List Token) (t u : Token) (rest : List Token)
    (htok : d.tokens = pre ++ t :: u :: rest) (hcur : d.cursor = (pre.length : Int)) :
    d.nextOnSameLine =
      if isNextOnNewLine t u then (false, d)
      else (true, { d with cursor := ((pre ++ [t]).length : Int) }) := by
  unfold Dispenser.nextOnSameLine
  have h0 : ¬ d.cursor < 0 := by rw [hcur]; omega
  have h1 : ¬ d.cursor ≥ (d.tokens.length : Int) - 1 := by
    rw [htok, hcur]; simp
  have h2 : d.tokenAt d.cursor = some t := by
    rw [hcur]; exact tokenAt_at d pre t (u :: rest) htok
  have h3 : d.tokenAt (d.cursor + 1) = some u := by
    have := tokenAt_at d (pre ++ [t]) u rest (by simp [htok])
    rw [hcur]
    simpa using this
  simp only [h0, h1, if_false, h2, h3]
  cases isNextOnNewLine t u <;> simp [hcur]

theorem nextOnSameLine_last (d : Dispenser) (pre : List Token) (t : Token)
    (htok : d.tokens = pre ++ [t]) (hcur : d.cursor = (pre.length : Int)) :
    d.nextOnSameLine = (false, d) := by
  unfold Dispenser.nextOnSameLine
  have h0 : ¬ d.cursor < 0 := by rw [hcur]; omega
  have h1 : d.cursor ≥ (d.tokens.length : Int) - 1 := by
    rw [htok, hcur]; simp
  simp only [h0, h1, if_false, if_true]

theorem numLineBreaks_word (w : String) (l : Nat) (h : Word w) :
    Token.NumLineBreaks { Text := w, Line := l } = 0 := h.2.2

theorem isNextOnNewLine_word (w : String) (l : Nat) (u : Token) (h : Word w) :
    isNextOnNewLine { Text := w, Line := l } u = decide (l < u.Line) := by
  unfold isNextOnNewLine
  rw [numLineBreaks_word w l h]
  simp

/-- `NextArg` on a word followed on its line by another word. -/
theorem NextArg_at_word (d : Dispenser) (pre : List Token) (w v : String) (l : Nat)
    (rest : List Token) (hw : Word w) (hv : Word v)
    (htok : d.tokens = pre ++ { Text := w, Line := l } :: { Text := v, Line := l } :: rest)
    (hcur : d.cursor = (pre.length : Int)) :
    d.NextArg = (true, { d with cursor := ((pre.length + 1 : Nat) : Int) }) := by
  unfold Dispenser.NextArg
  rw [nextOnSameLine_at d pre _ _ rest htok hcur, isNextOnNewLine_word w l _ hw]
  have hval : ({ d with cursor := ((pre ++ [({ Text := w, Line := l } : Token)]).length : Int) }
      : Dispenser).Val = v :=
    Val_at _ (pre ++ [{ Text := w, Line := l }]) { Text := v, Line := l } rest
      (by simp [htok]) rfl
  simp only [lt_irrefl, decide_False, Bool.false_eq_true, if_false, Bool.not_true, hval]
  simp [hv.1]

/-- `NextArg` on a word that is the last of its line. -/
theorem NextArg_at_eol (d : Dispenser) (pre : List Token) (w : String) (l : Nat)
    (u : Token) (rest : List Token) (hw : Word w) (hu : l < u.Line)
    (htok : d.tokens = pre ++ { Text := w, Line := l } :: u :: rest)
    (hcur : d.cursor = (pre.length : Int)) :
    d.NextArg = (false, d) := by
  unfold Dispenser.NextArg
  rw [nextOnSameLine_at d pre _ _ rest htok hcur, isNextOnNewLine_word w l _ hw]
  simp [hu]

/-- `NextBlock` inside the block, the next token being a word. -/
theorem NextBlock_inner_word (d : Dispenser) (n : Int) (pre : List Token) (t : Token)
    (w : String) (l : Nat) (rest : List Token) (hw : Word w)
    (htok : d.tokens = pre ++ t :: { Text := w, Line := l } :: rest)
    (hcur : d.cursor = (pre.length : Int)) (hn : n < d.nesting) :
    d.NextBlock n = (true, { d with cursor := ((pre.length + 1 : Nat) : Int) }) := by
  unfold Dispenser.NextBlock
  have hval : ({ d with cursor := ((pre ++ [t]).length : Int) } : Dispenser).Val = w :=
    Val_at _ (pre ++ [t]) { Text := w, Line := l } rest (by simp [htok]) rfl
  rw [if_pos (by omega), Next_at d pre t _ rest htok hcur]
  simp only [Bool.not_true, Bool.false_eq_true, if_false, hval, hw.1, hw.2.1]
  simp [hn]

/-- `NextBlock` at the end of the line that opens the block, the block starting
with a word. -/
theorem NextBlock_open (d : Dispenser) (n : Int) (pre : List Token) (tw : String) (l : Nat)
    (w : String) (l2 : Nat) (rest : List Token) (htw : Word tw) (hw : Word w)
    (htok : d.tokens = pre ++ { Text := tw, Line := l } :: { Text := "\x7b", Line := l } ::
      { Text := w, Line := l2 } :: rest)
    (hcur : d.cursor = (pre.length : Int)) (hn : d.nesting = n) :
    d.NextBlock n =
      (true, { d with cursor := ((pre.length + 2 : Nat) : Int), nesting := n + 1 }) := by
  unfold Dispenser.NextBlock
  have hval1 : ({ d with cursor := ((pre ++ [({ Text := tw, Line := l } : Token)]).length : Int) }
      : Dispenser).Val = "\x7b" :=
    Val_at _ (pre ++ [{ Text := tw, Line := l }]) { Text := "\x7b", Line := l }
      ({ Text := w, Line := l2 } :: rest) (by simp [htok]) rfl
  have hnext : ({ d with cursor := ((pre ++ [({ Text := tw, Line := l } : Token)]).length : Int) }
      : Dispenser).Next = (true, { d with cursor :=
        ((pre ++ [({ Text := tw, Line := l } : Token)] ++
          [({ Text := "\x7b", Line := l } : Token)]).length : Int) }) :=
    Next_at _ (pre ++ [{ Text := tw, Line := l }]) { Text := "\x7b", Line := l }
      { Text := w, Line := l2 } rest (by simp [htok]) rfl
  have hval2 : ({ d with cursor := ((pre ++ [({ Text := tw, Line := l } : Token)] ++
          [({ Text := "\x7b", Line := l } : Token)]).length : Int) } : Dispenser).Val = w :=
    Val_at _ (pre ++ [{ Text := tw, Line := l }] ++ [{ Text := "\x7b", Line := l }])
      { Text := w, Line := l2 } rest (by simp [htok]) rfl
  rw [if_neg (by omega), nextOnSameLine_at d pre _ _ _ htok hcur,
    isNextOnNewLine_word tw l _ htw]
  simp only [lt_irrefl, decide_False, Bool.false_eq_true, if_false, Bool.not_true, hval1,
    ne_eq, not_true_eq_false, hnext, hval2, hw.2.1]
  simp [hn]

/-- The `switch` on the first token of an entry: it returns an error, unless
the entry is `interval` or `timeout` with a first value that parses, in which
case the cursor is left on that value. -/
theorem body_at_entry {P : Type} (pd : String → Except Error Int) (d : Dispenser)
    (m : BunnyIPRange P) (pre : List Token) (name : String) (l : Nat) (args : List String)
    (u : Token) (rest : List Token) (hname : Word name) (hargs : ∀ w ∈ args, Word w)
    (hu : l < u.Line)
    (htok : d.tokens = pre ++ { Text := name, Line := l } :: (lineTokens l args ++ u :: rest))
    (hcur : d.cursor = (pre.length : Int)) :
    (∃ d2 m2 err, UnmarshalCaddyfile.body pd d m = .ret d2 m2 err) ∨
    (∃ m2 v args' x, args = v :: args' ∧ (name = "interval" ∨ name = "timeout") ∧
      pd v = .ok x ∧
      UnmarshalCaddyfile.body pd d m =
        .next { d with cursor := ((pre.length + 1 : Nat) : Int) } m2) := by
  have hval : d.Val = name := Val_at d pre _ _ htok hcur
  have hkey : ∀ f : Int → BunnyIPRange P,
      (∃ d2 m2 err,
        (match d.NextArg with
          | (more, d1) =>
            if (!more) = true then BodyResult.ret d1 m d1.ArgErr
            else
              match pd d1.Val with
              | .error err => BodyResult.ret d1 m err
              | .ok val => BodyResult.next d1 (f val)) = .ret d2 m2 err) ∨
      (∃ m2 v args' x, args = v :: args' ∧ pd v = .ok x ∧
        (match d.NextArg with
          | (more, d1) =>
            if (!more) = true then BodyResult.ret d1 m d1.ArgErr
            else
              match pd d1.Val with
              | .error err => BodyResult.ret d1 m err
              | .ok val => BodyResult.next d1 (f val)) =
          .next { d with cursor := ((pre.length + 1 : Nat) : Int) } m2) := by
    intro f
    cases args with
    | nil =>
      left
      rw [NextArg_at_eol d pre name l u rest hname hu (by simpa [lineTokens] using htok) hcur]
      exact ⟨_, _, _, rfl⟩
    | cons v args' =>
      have hv : Word v := hargs v (List.mem_cons_self _ _)
      have htok2 : d.tokens = pre ++ { Text := name, Line := l } :: { Text := v, Line := l } ::
          (lineTokens l args' ++ u :: rest) := by
        simpa [lineTokens] using htok
      rw [NextArg_at_word d pre name v l _ hname hv htok2 hcur]
      have hval2 : ({ d with cursor := ((pre.length + 1 : Nat) : Int) } : Dispenser).Val = v :=
        Val_at _ (pre ++ [{ Text := name, Line := l }]) { Text := v, Line := l }
          (lineTokens l args' ++ u :: rest) (by simp [htok2]) (by simp)
      simp only [Bool.not_true, Bool.false_eq_true, if_false, hval2]
      cases hp : pd v with
      | error e => left; exact ⟨_, _, _, rfl⟩
      | ok x => right; exact ⟨_, v, args', x, rfl, hp, rfl⟩
  unfold UnmarshalCaddyfile.body
  rw [hval]
  by_cases h1 : name = "interval"
  · rw [if_pos h1]
    rcases hkey (fun val => { m with Interval := val }) with h | ⟨m2, v, args', x, ha, hp, hb⟩
    · exact Or.inl h
    · exact Or.inr ⟨m2, v, args', x, ha, Or.inl h1, hp, hb⟩
  · rw [if_neg h1]
    by_cases h2 : name = "timeout"
    · rw [if_pos h2]
      rcases hkey (fun val => { m with Timeout := val }) with h | ⟨m2, v, args', x, ha, hp, hb⟩
      · exact Or.inl h
      · exact Or.inr ⟨m2, v, args', x, ha, Or.inr h2, hp, hb⟩
    · rw [if_neg h2]
      exact Or.inl ⟨_, _, _, rfl⟩

theorem entryTokens_tail (l lc : Nat) (es : List Entry) (h : l + es.length < lc) :
    ∃ u rest, entryTokens (l + 1) es ++ [({ Text := "\x7d", Line := lc } : Token)] = u :: rest ∧
      l < u.Line := by
  cases es with
  | nil => exact ⟨_, _, rfl, by simpa using h⟩
  | cons e es =>
    refine ⟨{ Text := e.name, Line := l + 1 },
      lineTokens (l + 1) e.args ++ (entryTokens (l + 1 + 1) es ++
        [{ Text := "\x7d", Line := lc }]), ?_, ?_⟩
    · simp [entryTokens, lineTokens]
    · simp

theorem not_invalid_of_parsed (pd : String → Except Error Int) (e : Entry) (v : String)
    (args' : List String) (x : Int) (ha : e.args = v :: args')
    (hnm : e.name = "interval" ∨ e.name = "timeout") (hp : pd v = .ok x) :
    ¬ e.Invalid pd := by
  rintro (⟨h1, h2⟩ | h | ⟨v', rest, err, h, herr⟩)
  · rcases hnm with h | h
    · exact h1 h
    · exact h2 h
  · rw [ha] at h; cases h
  · rw [ha] at h
    cases h
    rw [hp] at herr
    cases herr

/-- Inside the block, with the cursor on the name of an entry: when one of the
entries from there on is invalid, what the loop returns carries an error. -/
theorem entries_invalid_error {P : Type} (pd : String → Except Error Int) (n : Int)
    (lc : Nat) :
    ∀ (fuel : Nat) (es : List Entry) (e : Entry) (l : Nat) (pre : List Token)
      (m : BunnyIPRange P) (d : Dispenser),
      d.tokens = pre ++ (entryTokens l (e :: es) ++ [{ Text := "\x7d", Line := lc }]) →
      d.cursor = (pre.length : Int) → d.nesting = n + 1 →
      (∀ e' ∈ e :: es, Word e'.name ∧ ∀ w ∈ e'.args, Word w) →
      l + es.length < lc →
      (∃ e' ∈ e :: es, e'.Invalid pd) →
      ∀ r, (match UnmarshalCaddyfile.body pd d m with
            | .ret d2 m2 err => some (d2, m2, some err)
            | .next d2 m2 => UnmarshalCaddyfile.loop pd n fuel d2 m2) = some r →
        ∃ err, r.2.2 = some err := by
  intro fuel
  induction fuel with
  | zero =>
    intro es e l pre m d htok hcur _ hwords hlc _ r h
    obtain ⟨u, rest, htail, hu⟩ := entryTokens_tail l lc es hlc
    have htok2 : d.tokens = pre ++ { Text := e.name, Line := l } ::
        (lineTokens l e.args ++ u :: rest) := by
      rw [htok, ← htail]; simp [entryTokens, lineTokens]
    have hw := hwords e (List.mem_cons_self _ _)
    rcases body_at_entry pd d m pre e.name l e.args u rest hw.1 hw.2 hu htok2 hcur with
      ⟨d2, m2, err, hb⟩ | ⟨m2, v, args', x, _, _, _, hb⟩
    · rw [hb] at h
      cases h
      exact ⟨err, rfl⟩
    · rw [hb] at h
      simp [UnmarshalCaddyfile.loop] at h
  | succ f ih =>
    intro es e l pre m d htok hcur hnest hwords hlc hinv r h
    obtain ⟨u, rest, htail, hu⟩ := entryTokens_tail l lc es hlc
    have htok2 : d.tokens = pre ++ { Text := e.name, Line := l } ::
        (lineTokens l e.args ++ u :: rest) := by
      rw [htok, ← htail]; simp [entryTokens, lineTokens]
    have hw := hwords e (List.mem_cons_self _ _)
    rcases body_at_entry pd d m pre e.name l e.args u rest hw.1 hw.2 hu htok2 hcur with
      ⟨d2, m2, err, hb⟩ | ⟨m2, v, args', x, ha, hnm, hp, hb⟩
    · rw [hb] at h
      cases h
      exact ⟨err, rfl⟩
    · rw [hb] at h
      simp only at h
      have hnot := not_invalid_of_parsed pd e v args' x ha hnm hp
      have hinv2 : ∃ e' ∈ es, e'.Invalid pd := by
        obtain ⟨e', he', hbad⟩ := hinv
        rcases List.mem_cons.mp he' with rfl | hmem
        · exact absurd hbad hnot
        · exact ⟨e', hmem, hbad⟩
      have hcur2 : ({ d with cursor := ((pre.length + 1 : Nat) : Int) } : Dispenser).cursor =
          ((pre ++ [({ Text := e.name, Line := l } : Token)]).length : Int) := by simp
      unfold UnmarshalCaddyfile.loop at h
      cases args' with
      | cons w args'' =>
        have hargs : ∀ w' ∈ e.args, Word w' := hw.2
        rw [ha] at hargs
        have hww : Word w := hargs w (by simp)
        have htok3 : ({ d with cursor := ((pre.length + 1 : Nat) : Int) } : Dispenser).tokens =
            (pre ++ [({ Text := e.name, Line := l } : Token)]) ++ { Text := v, Line := l } ::
              { Text := w, Line := l } ::
              (lineTokens l args'' ++ (entryTokens (l + 1) es ++
                [{ Text := "\x7d", Line := lc }])) := by
          rw [show ({ d with cursor := ((pre.length + 1 : Nat) : Int) } : Dispenser).tokens =
            d.tokens from rfl, htok]
          simp [entryTokens, lineTokens, ha]
        rw [NextBlock_inner_word _ n _ _ w l _ hww htok3 hcur2
          (by show n < d.nesting; omega)] at h
        simp only [Bool.not_true, Bool.false_eq_true, if_false] at h
        refine ih es { name := w, args := args'' } l
          (pre ++ [{ Text := e.name, Line := l }, { Text := v, Line := l }]) m2 _ ?_ ?_ ?_ ?_
          hlc ?_ r h
        · rw [show ∀ (a b : Int), ({ ({ d with cursor := a } : Dispenser) with cursor := b }
            : Dispenser).tokens = d.tokens from fun _ _ => rfl, htok]
          simp [entryTokens, lineTokens, ha]
        · simp; omega
        · exact hnest
        · intro e' he'
          rcases List.mem_cons.mp he' with rfl | hmem
          · exact ⟨hww, fun w' hw' => hargs w' (by simp [hw'])⟩
          · exact hwords e' (List.mem_cons_of_mem _ hmem)
        · obtain ⟨e', he', hbad⟩ := hinv2
          exact ⟨e', List.mem_cons_of_mem _ he', hbad⟩
      | nil =>
        cases es with
        | nil =>
          obtain ⟨e', he', _⟩ := hinv2
          exact absurd he' (List.not_mem_nil _)
        | cons e2 es' =>
          have hw2 := hwords e2 (by simp)
          have htok3 : ({ d with cursor := ((pre.length + 1 : Nat) : Int) } : Dispenser).tokens =
              (pre ++ [({ Text := e.name, Line := l } : Token)]) ++ { Text := v, Line := l } ::
                { Text := e2.name, Line := l + 1 } ::
                (lineTokens (l + 1) e2.args ++ (entryTokens (l + 1 + 1) es' ++
                  [{ Text := "\x7d", Line := lc }])) := by
            rw [show ({ d with cursor := ((pre.length + 1 : Nat) : Int) } : Dispenser).tokens =
              d.tokens from rfl, htok]
            simp [entryTokens, lineTokens, ha]
          rw [NextBlock_inner_word _ n _ _ e2.name (l + 1) _ hw2.1 htok3 hcur2
            (by show n < d.nesting; omega)] at h
          simp only [Bool.not_true, Bool.false_eq_true, if_false] at h
          refine ih es' e2 (l + 1)
            (pre ++ [{ Text := e.name, Line := l }, { Text := v, Line := l }]) m2 _ ?_ ?_ ?_ ?_
            ?_ hinv2 r h
          · rw [show ∀ (a b : Int), ({ ({ d with cursor := a } : Dispenser) with cursor := b }
              : Dispenser).tokens = d.tokens from fun _ _ => rfl, htok]
            simp [entryTokens, lineTokens, ha]
          · simp; omega
          · exact hnest
          · intro e' he'
            exact hwords e' (List.mem_cons_of_mem _ he')
          · simp only [List.length_cons] at hlc
            omega

/-- `NextArg` on a word followed on its line by the opening brace. -/
theorem NextArg_at_brace (d : Dispenser) (pre : List Token) (w : String) (l : Nat)
    (rest : List Token) (hw : Word w)
    (htok : d.tokens = pre ++ { Text := w, Line := l } :: { Text := "\x7b", Line := l } :: rest)
    (hcur : d.cursor = (pre.length : Int)) :
    d.NextArg = (false, d) := by
  unfold Dispenser.NextArg
  rw [nextOnSameLine_at d pre _ _ rest htok hcur, isNextOnNewLine_word w l _ hw]
  have hval : ({ d with cursor := ((pre ++ [({ Text := w, Line := l } : Token)]).length : Int) }
      : Dispenser).Val = "\x7b" :=
    Val_at _ (pre ++ [{ Text := w, Line := l }]) { Text := "\x7b", Line := l } rest
      (by simp [htok]) rfl
  simp only [lt_irrefl, decide_False, Bool.false_eq_true, if_false, Bool.not_true, hval,
    if_true]
  obtain ⟨tokens, cursor, nesting⟩ := d
  simp only at hcur
  simp [hcur]

theorem NewDispenser_Next (tokens : List Token) (h : tokens ≠ []) :
    (NewDispenser tokens).Next.2 = { tokens := tokens, cursor := 0, nesting := 0 } := by
  unfold Dispenser.Next NewDispenser
  have hlen : 0 < tokens.length := List.length_pos.mpr h
  have : (-1 : Int) < (tokens.length : Int) - 1 := by omega
  simp only [this, if_true]
  rfl

/-- C9: `UnmarshalCaddyfile` returns an error for every invalid configuration.
For a `bunny` segment written with words (no braces, no line breaks inside a
token), if there is an argument on the line of the module name, or the block
has an entry whose option is neither `interval` nor `timeout`, or an `interval`
or `timeout` entry without a value, or one whose value `ParseDuration` rejects,
then `UnmarshalCaddyfile` on the tokens of the segment returns, and returns an
error. -/
theorem UnmarshalCaddyfile_rejects_invalid {P : Type} (pd : String → Except Error Int)
    (c : Config) (m : BunnyIPRange P) (hwf : c.WellFormed) (hinv : c.Invalid pd) :
    ∃ d' m' err, UnmarshalCaddyfile pd (NewDispenser c.tokens) m = some (d', m', some err) := by
  obtain ⟨r, hr⟩ := UnmarshalCaddyfile_returns pd (NewDispenser c.tokens) m
  suffices hs : ∃ err, r.2.2 = some err by
    obtain ⟨err, herr⟩ := hs
    refine ⟨r.1, r.2.1, err, ?_⟩
    rw [hr, ← herr]
  obtain ⟨module, sameLine, block⟩ := c
  obtain ⟨hmod, hsame, hblock⟩ := hwf
  simp only at hmod hsame hblock
  unfold UnmarshalCaddyfile at hr
  simp only at hr
  rw [NewDispenser_Next _ (by simp [Config.tokens, lineTokens])] at hr
  cases sameLine with
  | cons w ws =>
    have hw : Word w := hsame w (List.mem_cons_self _ _)
    have ht : Config.tokens { module := module, sameLine := w :: ws, block := block } =
        [] ++ { Text := module, Line := 1 } :: { Text := w, Line := 1 } ::
          (lineTokens 1 ws ++ blockTokens block) := rfl
    rw [NextArg_at_word _ [] module w 1 _ hmod hw ht rfl] at hr
    simp only [if_true, Option.some.injEq] at hr
    subst hr
    exact ⟨_, rfl⟩
  | nil =>
    rcases hinv with h | ⟨es, hes, e, he, hbad⟩
    · exact absurd rfl h
    · simp only at hes
      subst hes
      cases es with
      | nil => exact absurd he (List.not_mem_nil _)
      | cons e1 es' =>
        have hwords := hblock (e1 :: es') rfl
        have hw1 := hwords e1 (List.mem_cons_self _ _)
        have ht : Config.tokens { module := module, sameLine := [], block := some (e1 :: es') } =
            [] ++ { Text := module, Line := 1 } :: { Text := "\x7b", Line := 1 } ::
              { Text := e1.name, Line := 2 } ::
              (lineTokens 2 e1.args ++ (entryTokens 3 es' ++
                [{ Text := "\x7d", Line := 2 + (e1 :: es').length }])) := by
          simp [Config.tokens, blockTokens, entryTokens, lineTokens]
        rw [NextArg_at_brace _ [] module 1 _ hmod ht rfl] at hr
        simp only [Bool.false_eq_true, if_false, Dispenser.Nesting, Dispenser.bound] at hr
        unfold UnmarshalCaddyfile.loop at hr
        rw [NextBlock_open _ 0 [] module 1 e1.name 2 _ hmod hw1.1 ht rfl rfl] at hr
        simp only [Bool.not_true, Bool.false_eq_true, if_false] at hr
        refine entries_invalid_error pd 0 (2 + (e1 :: es').length) _ es' e1 2
          [{ Text := module, Line := 1 }, { Text := "\x7b", Line := 1 }] m _ ?_ ?_ ?_ hwords
          ?_ ⟨e, he, hbad⟩ r hr
        · simp [Config.tokens, blockTokens, entryTokens, lineTokens]
        · simp
        · simp
        · simp

/-- A block with a valid `interval` line followed by an unknown option is
rejected, with the error `ArgErr` builds at the token `bogus`. -/
theorem UnmarshalCaddyfile_rejects_invalid_witness :
    (UnmarshalCaddyfile parseDurationInt
        (NewDispenser (Config.tokens
          { module := "bunny", sameLine := [],
            block := some [{ name := "interval", args := ["1h"] },
              { name := "bogus", args := [] }] }))
        (BunnyIPRange.provisioned 0 0 (.base none) : BunnyIPRange SamplePrefix)).map
      (fun r => (r.2.1.Interval, r.2.2)) = some (3600000000000, some (.argErr "bogus")) ∧
    ∃ d' m' err,
      UnmarshalCaddyfile parseDurationInt
        (NewDispenser (Config.tokens
          { module := "bunny", sameLine := [],
            block := some [{ name := "interval", args := ["1h"] },
              { name := "bogus", args := [] }] }))
        (BunnyIPRange.provisioned 0 0 (.base none) : BunnyIPRange SamplePrefix) =
        some (d', m', some err) :=
  ⟨by decide,
    UnmarshalCaddyfile_rejects_invalid parseDurationInt
      { module := "bunny", sameLine := [],
        block := some [{ name := "interval", args := ["1h"] }, { name := "bogus", args := [] }] }
      (BunnyIPRange.provisioned 0 0 (.base none))
      ⟨by decide, by simp, by
        intro es hes
        cases hes
        decide⟩
      (Or.inr ⟨_, rfl, { name := "bogus", args := [] }, by simp,
        Or.inl ⟨by decide, by decide⟩⟩)⟩

/-- C10 as stated fails: the block `interval -1s` / `timeout -5s` is accepted,
and leaves `Interval` = -1 s and `Timeout` = -5 s; `refreshLoop` then passes
-1 s to `time.NewTicker`, which panics. -/
theorem UnmarshalCaddyfile_accepts_negative :
    (UnmarshalCaddyfile parseDurationInt
        (NewDispenser
          [{ Text := "bunny", Line := 1 }, { Text := "\x7b", Line := 1 },
            { Text := "interval", Line := 2 }, { Text := "-1s", Line := 2 },
            { Text := "timeout", Line := 3 }, { Text := "-5s", Line := 3 },
            { Text := "\x7d", Line := 4 }])
        (BunnyIPRange.provisioned 0 0 (.base none) : BunnyIPRange SamplePrefix)).map
      (fun r => (r.2.1.Interval, r.2.1.Timeout, r.2.2)) =
      some (-1000000000, -5000000000, none) ∧
    (refreshLoop.step sampleCIDR (Provision (-1000000000) (-5000000000)) .exec).map
      (fun σ => (σ.tickerArg, σ.tickerRunning, σ.pc)) =
      some (some (-1000000000), false, .panicked) := by
  decide

/-- C10, amended: when no token of the configuration parses to a negative
duration, and `Interval` and `Timeout` are not negative beforehand, an accepted
configuration leaves `Interval` and `Timeout` zero or positive, and the period
`refreshLoop` then hands to the ticker is strictly positive. -/
theorem UnmarshalCaddyfile_nonneg {P : Type} (pd : String → Except Error Int)
    (tokens : List Token) (m : BunnyIPRange P) (d' : Dispenser) (m' : BunnyIPRange P)
    (hpd : ∀ t ∈ tokens, ∀ x, pd t.Text = .ok x → 0 ≤ x)
    (hI : 0 ≤ m.Interval) (hT : 0 ≤ m.Timeout)
    (h : UnmarshalCaddyfile pd (NewDispenser tokens) m = some (d', m', none)) :
    0 ≤ m'.Interval ∧ 0 ≤ m'.Timeout ∧ 0 < effectiveInterval m'.Interval := by
  have hmain : 0 ≤ m'.Interval ∧ 0 ≤ m'.Timeout := by
    cases tokens with
    | nil =>
      simp [UnmarshalCaddyfile, NewDispenser, Dispenser.Next, Dispenser.NextArg,
        Dispenser.nextOnSameLine, Dispenser.Val, Dispenser.tokenAt] at h
    | cons t rest =>
      unfold UnmarshalCaddyfile at h
      simp only at h
      rw [NewDispenser_Next _ (List.cons_ne_nil _ _)] at h
      have hc := NextArg_cursor { tokens := t :: rest, cursor := 0, nesting := 0 }
      have ht := NextArg_tokens { tokens := t :: rest, cursor := 0, nesting := 0 }
      rcases hna : Dispenser.NextArg { tokens := t :: rest, cursor := 0, nesting := 0 } with
        ⟨more, d2⟩
      rw [hna] at h hc ht
      simp only at h hc ht
      cases more
      · simp only [Bool.false_eq_true, if_false] at h
        have := loop_nonneg pd _ _ d2 m _ (by rw [hc.2 rfl]) (by rw [ht]; exact hpd) hI hT h
        exact this
      · simp at h
  refine ⟨hmain.1, hmain.2, ?_⟩
  unfold effectiveInterval Hour
  split
  · decide
  · omega

/-- The block `interval 1h` / `timeout 30s` is accepted and gives a positive
period. -/
theorem UnmarshalCaddyfile_nonneg_witness :
    ∃ d' m',
      UnmarshalCaddyfile parseDurationInt
        (NewDispenser
          [{ Text := "bunny", Line := 1 }, { Text := "\x7b", Line := 1 },
            { Text := "interval", Line := 2 }, { Text := "1h", Line := 2 },
            { Text := "timeout", Line := 3 }, { Text := "30s", Line := 3 },
            { Text := "\x7d", Line := 4 }])
        (BunnyIPRange.provisioned 0 0 (.base none) : BunnyIPRange SamplePrefix) =
        some (d', m', none) ∧
      m'.Interval = 3600000000000 ∧ m'.Timeout = 30000000000 ∧
      (0 ≤ m'.Interval ∧ 0 ≤ m'.Timeout ∧ 0 < effectiveInterval m'.Interval) :=
  ⟨_, _, rfl, rfl, rfl,
    UnmarshalCaddyfile_nonneg parseDurationInt
      [{ Text := "bunny", Line := 1 }, { Text := "\x7b", Line := 1 },
        { Text := "interval", Line := 2 }, { Text := "1h", Line := 2 },
        { Text := "timeout", Line := 3 }, { Text := "30s", Line := 3 },
        { Text := "\x7d", Line := 4 }]
      (BunnyIPRange.provisioned 0 0 (.base none)) _ _
      (by
        intro t ht x hx
        simp only [List.mem_cons, List.mem_singleton, List.not_mem_nil, or_false] at ht
        rcases ht with rfl | rfl | rfl | rfl | rfl | rfl | rfl
        · cases hx
        · cases hx
        · cases hx
        · cases hx; decide
        · cases hx
        · cases hx; decide
        · cases hx)
      (by decide) (by decide) rfl⟩

end Bunny
